import Mathlib

/-!
# Verification of the family-graph example (`main.go`)

The program builds a directed graph from a flat list of `FamilyMember`
records (parent links resolved by display name), renders a Graphviz DOT
description, and runs four read-only queries (DFS, BFS, roots, leaves).

Shallow embedding notes:
* `FamilyMember`, `Edge`, `GraphOutput` mirror the Go structs.
* `DiGraph` models the state of `graph.Graph[string, FamilyMember]`
  (directed, hash = `member.ID`): `AddVertex` rejects a duplicate hash and
  `AddEdge` rejects a missing endpoint or a duplicate edge (the Go code
  ignores both errors, so rejection is modelled as a no-op).
* The Go map `nameToID` is modelled as a function `String → Option String`
  updated by overwriting, exactly like map assignment.
* The traversal/query functions `graph.DFS`, `graph.BFS`,
  `PredecessorMap`, `AdjacencyMap` live in the third-party library whose
  source is not part of this repository; they are modelled from the spec
  (see the doc comments marked `Modelled from the spec:`).
-/

namespace FamilyGraph

/-- Mirrors Go `FamilyMember`: ID (unique key), display name, optional
parent reference by name (empty string = no parent). -/
structure FamilyMember where
  ID : String
  Name : String
  ParentName : String
deriving DecidableEq, Repr

/-- Mirrors Go `Edge`: a directed connection parent-ID → child-ID. -/
structure Edge where
  From : String
  To : String
deriving DecidableEq, Repr

/-- Mirrors Go `GraphOutput`: node list and edge list. -/
structure GraphOutput where
  Nodes : List FamilyMember
  Edges : List Edge
deriving DecidableEq, Repr

/-- State of the library graph: vertex list (insertion order) and edge
list (insertion order).  The hash of a vertex is its `ID`. -/
structure DiGraph where
  vertices : List FamilyMember
  edges : List Edge
deriving DecidableEq, Repr

def DiGraph.vertexIDs (g : DiGraph) : List String :=
  g.vertices.map FamilyMember.ID

def DiGraph.hasVertex (g : DiGraph) (id : String) : Prop :=
  id ∈ g.vertexIDs

instance (g : DiGraph) (id : String) : Decidable (g.hasVertex id) := by
  unfold DiGraph.hasVertex; infer_instance

/-- `g.AddVertex(m)`: the library returns `ErrVertexAlreadyExists` when the
hash is taken (the caller ignores the error), otherwise stores the vertex. -/
def DiGraph.addVertex (g : DiGraph) (m : FamilyMember) : DiGraph :=
  if g.hasVertex m.ID then g
  else { g with vertices := g.vertices ++ [m] }

/-- `g.AddEdge(src, dst)`: the library errors when an endpoint is missing
or the edge already exists (errors ignored by the caller), otherwise
appends the edge. -/
def DiGraph.addEdge (g : DiGraph) (src dst : String) : DiGraph :=
  if g.hasVertex src ∧ g.hasVertex dst ∧ Edge.mk src dst ∉ g.edges then
    { g with edges := g.edges ++ [Edge.mk src dst] }
  else g

/-- One iteration of the first loop of `buildFamilyGraph`:
`g.AddVertex(member)` and `nameToID[member.Name] = member.ID`. -/
def registerStep (p : DiGraph × (String → Option String)) (m : FamilyMember) :
    DiGraph × (String → Option String) :=
  (p.1.addVertex m, fun n => if n = m.Name then some m.ID else p.2 n)

/-- The first loop of `buildFamilyGraph`: add every member as a vertex and
record the name→ID mapping. -/
def registerAll (members : List FamilyMember) : DiGraph × (String → Option String) :=
  members.foldl registerStep (⟨[], []⟩, fun _ => none)

/-- One iteration of the second loop of `buildFamilyGraph`: when the
member has a non-empty parent name that resolves in the map, add the edge
parent → child to the graph and append it to the edge slice. -/
def edgeStep (nameToID : String → Option String) (p : DiGraph × List Edge)
    (m : FamilyMember) : DiGraph × List Edge :=
  if m.ParentName ≠ "" then
    match nameToID m.ParentName with
    | some parentID => (p.1.addEdge parentID m.ID, p.2 ++ [Edge.mk parentID m.ID])
    | none => p
  else p

/-- The second loop of `buildFamilyGraph`. -/
def addFamilyEdges (g : DiGraph) (nameToID : String → Option String)
    (members : List FamilyMember) : DiGraph × List Edge :=
  members.foldl (edgeStep nameToID) (g, [])

/-- Go `buildFamilyGraph`: returns the `GraphOutput` (all input members as
nodes, resolved edges) and the library graph. -/
def buildFamilyGraph (members : List FamilyMember) : GraphOutput × DiGraph :=
  let p := registerAll members
  let q := addFamilyEdges p.1 p.2 members
  ({ Nodes := members, Edges := q.2 }, q.1)

/-! ## Basic lemmas about graph construction -/

theorem DiGraph.vertices_addEdge (g : DiGraph) (s d : String) :
    (g.addEdge s d).vertices = g.vertices := by
  unfold DiGraph.addEdge; split <;> rfl

theorem vertices_edgeStep (f : String → Option String) (p : DiGraph × List Edge)
    (m : FamilyMember) : ((edgeStep f p m).1).vertices = p.1.vertices := by
  unfold edgeStep
  split
  · cases hf : f m.ParentName <;> simp [hf, DiGraph.vertices_addEdge]
  · rfl

theorem vertices_edgeFold (f : String → Option String) (ms : List FamilyMember) :
    ∀ p : DiGraph × List Edge,
      ((ms.foldl (edgeStep f) p).1).vertices = p.1.vertices := by
  induction ms with
  | nil => intro p; rfl
  | cons m ms ih =>
      intro p
      simp only [List.foldl_cons]
      rw [ih (edgeStep f p m), vertices_edgeStep]

theorem DiGraph.vertexIDs_addVertex (g : DiGraph) (m : FamilyMember) :
    (g.addVertex m).vertexIDs =
      if m.ID ∈ g.vertexIDs then g.vertexIDs else g.vertexIDs ++ [m.ID] := by
  unfold DiGraph.addVertex DiGraph.hasVertex
  split <;> simp_all [DiGraph.vertexIDs]

theorem vertexIDs_registerFold_nodup (ms : List FamilyMember) :
    ∀ p : DiGraph × (String → Option String), p.1.vertexIDs.Nodup →
      ((ms.foldl registerStep p).1).vertexIDs.Nodup := by
  induction ms with
  | nil => intro p h; exact h
  | cons m ms ih =>
      intro p h
      simp only [List.foldl_cons]
      apply ih
      show ((p.1.addVertex m)).vertexIDs.Nodup
      rw [DiGraph.vertexIDs_addVertex]
      split
      · exact h
      · simpa [List.nodup_append] using ⟨h, by assumption⟩

theorem mem_vertexIDs_registerFold_mono (ms : List FamilyMember) :
    ∀ p : DiGraph × (String → Option String), ∀ x ∈ p.1.vertexIDs,
      x ∈ ((ms.foldl registerStep p).1).vertexIDs := by
  induction ms with
  | nil => intro p x hx; exact hx
  | cons m ms ih =>
      intro p x hx
      simp only [List.foldl_cons]
      apply ih
      show x ∈ (p.1.addVertex m).vertexIDs
      rw [DiGraph.vertexIDs_addVertex]
      split <;> simp [hx]

theorem mem_vertexIDs_registerFold (ms : List FamilyMember) :
    ∀ p : DiGraph × (String → Option String), ∀ m ∈ ms,
      m.ID ∈ ((ms.foldl registerStep p).1).vertexIDs := by
  induction ms with
  | nil => intro p m hm; simp at hm
  | cons a ms ih =>
      intro p m hm
      simp only [List.foldl_cons]
      rcases List.mem_cons.mp hm with h | h
      · subst h
        apply mem_vertexIDs_registerFold_mono
        show m.ID ∈ (p.1.addVertex m).vertexIDs
        rw [DiGraph.vertexIDs_addVertex]
        split
        · assumption
        · simp
      · exact ih _ m h

theorem vertexIDs_registerFold_subset (ms : List FamilyMember) :
    ∀ p : DiGraph × (String → Option String), ∀ x,
      x ∈ ((ms.foldl registerStep p).1).vertexIDs →
      x ∈ p.1.vertexIDs ∨ ∃ m ∈ ms, m.ID = x := by
  induction ms with
  | nil => intro p x hx; exact Or.inl hx
  | cons m ms ih =>
      intro p x hx
      simp only [List.foldl_cons] at hx
      rcases ih _ x hx with h | ⟨m', hm', he⟩
      · have : x ∈ (p.1.addVertex m).vertexIDs := h
        rw [DiGraph.vertexIDs_addVertex] at this
        by_cases hc : m.ID ∈ p.1.vertexIDs
        · rw [if_pos hc] at this; exact Or.inl this
        · rw [if_neg hc] at this
          rcases List.mem_append.mp this with h' | h'
          · exact Or.inl h'
          · exact Or.inr ⟨m, List.mem_cons_self m ms, (List.mem_singleton.mp h').symm⟩
      · exact Or.inr ⟨m', List.mem_cons_of_mem m hm', he⟩

theorem vertices_buildFamilyGraph (members : List FamilyMember) :
    (buildFamilyGraph members).2.vertices = (registerAll members).1.vertices := by
  unfold buildFamilyGraph addFamilyEdges
  exact vertices_edgeFold _ members _

/-! ## The name→ID map holds the last writer -/

/-- The entity whose ID the `nameToID` map associates to `n`: the last
member of the input whose display name is `n`. -/
def nameLookup (ms : List FamilyMember) (n : String) : Option String :=
  (ms.reverse.find? (fun m => m.Name == n)).map FamilyMember.ID

theorem registerFold_snd (ms : List FamilyMember) :
    ∀ (p : DiGraph × (String → Option String)) (n : String),
      (ms.foldl registerStep p).2 n =
        ((ms.reverse.find? (fun m => m.Name == n)).map FamilyMember.ID).or (p.2 n) := by
  induction ms with
  | nil => intro p n; simp
  | cons a ms ih =>
      intro p n
      simp only [List.foldl_cons, List.reverse_cons, List.find?_append]
      rw [ih]
      cases hf : ms.reverse.find? (fun m => m.Name == n) with
      | some m => simp
      | none =>
          show (if n = a.Name then some a.ID else p.2 n) = _
          by_cases hn : n = a.Name
          · simp [hn, List.find?]
          · have : (a.Name == n) = false := by
              simp [Ne.symm hn]
            simp [hn, List.find?, this]

theorem nameToID_eq_nameLookup (ms : List FamilyMember) (n : String) :
    (registerAll ms).2 n = nameLookup ms n := by
  unfold registerAll nameLookup
  rw [registerFold_snd]
  simp

theorem nameLookup_some (ms : List FamilyMember) (n pid : String)
    (h : nameLookup ms n = some pid) :
    ∃ m ∈ ms, m.Name = n ∧ m.ID = pid := by
  unfold nameLookup at h
  cases hf : ms.reverse.find? (fun m => m.Name == n) with
  | none => rw [hf] at h; simp at h
  | some m =>
      rw [hf] at h
      refine ⟨m, ?_, ?_, ?_⟩
      · exact List.mem_reverse.mp (List.mem_of_find?_eq_some hf)
      · have := List.find?_some hf
        simpa using this
      · simpa using h

/-! ## The edge list produced by the second loop -/

theorem edgeStep_snd (f : String → Option String) (p : DiGraph × List Edge)
    (m : FamilyMember) :
    (edgeStep f p m).2 = p.2 ++
      (if m.ParentName = "" then none
       else (f m.ParentName).map (fun pid => Edge.mk pid m.ID)).toList := by
  unfold edgeStep
  by_cases hp : m.ParentName = ""
  · simp [hp]
  · cases hf : f m.ParentName <;> simp [hp, hf]

theorem edgeFold_snd (f : String → Option String) (ms : List FamilyMember) :
    ∀ p : DiGraph × List Edge,
      (ms.foldl (edgeStep f) p).2 = p.2 ++
        ms.filterMap (fun m =>
          if m.ParentName = "" then none
          else (f m.ParentName).map (fun pid => Edge.mk pid m.ID)) := by
  induction ms with
  | nil => intro p; simp
  | cons a ms ih =>
      intro p
      simp only [List.foldl_cons, List.filterMap_cons]
      rw [ih, edgeStep_snd]
      cases h : (if a.ParentName = "" then none
          else (f a.ParentName).map (fun pid => Edge.mk pid a.ID)) with
      | none => simp
      | some e => simp

/-- The `Edges` slice returned by `buildFamilyGraph`, characterised
entity by entity: each input member contributes the edge
`lastNamed(ParentName) → member` exactly when its parent name is
non-empty and resolves in the map. -/
theorem Edges_buildFamilyGraph (members : List FamilyMember) :
    (buildFamilyGraph members).1.Edges =
      members.filterMap (fun m =>
        if m.ParentName = "" then none
        else (nameLookup members m.ParentName).map (fun pid => Edge.mk pid m.ID)) := by
  show (addFamilyEdges (registerAll members).1 (registerAll members).2 members).2 = _
  unfold addFamilyEdges
  rw [edgeFold_snd]
  simp only [List.nil_append]
  apply List.filterMap_congr
  intro m _
  by_cases hp : m.ParentName = ""
  · simp [hp]
  · simp [hp, nameToID_eq_nameLookup]

/-! ## Membership of resolved edges in the library graph -/

theorem DiGraph.mem_edges_addEdge_self (g : DiGraph) (s d : String)
    (hs : s ∈ g.vertexIDs) (hd : d ∈ g.vertexIDs) :
    Edge.mk s d ∈ (g.addEdge s d).edges := by
  unfold DiGraph.addEdge
  split
  · simp
  · next h =>
      rcases not_and_or.mp h with h' | h'
      · exact absurd hs h'
      · rcases not_and_or.mp h' with h'' | h''
        · exact absurd hd h''
        · simpa using h''

theorem DiGraph.edges_mono_addEdge (g : DiGraph) (s d : String) (e : Edge)
    (he : e ∈ g.edges) : e ∈ (g.addEdge s d).edges := by
  unfold DiGraph.addEdge
  split
  · simp [he]
  · exact he

theorem edges_mono_edgeStep (f : String → Option String) (p : DiGraph × List Edge)
    (m : FamilyMember) (e : Edge) (he : e ∈ p.1.edges) :
    e ∈ (edgeStep f p m).1.edges := by
  unfold edgeStep
  split
  · cases hf : f m.ParentName with
    | some pid => simpa using DiGraph.edges_mono_addEdge p.1 pid m.ID e he
    | none => exact he
  · exact he

theorem edges_mono_edgeFold (f : String → Option String) (ms : List FamilyMember) :
    ∀ (p : DiGraph × List Edge) (e : Edge), e ∈ p.1.edges →
      e ∈ (ms.foldl (edgeStep f) p).1.edges := by
  induction ms with
  | nil => intro p e he; exact he
  | cons a ms ih =>
      intro p e he
      simp only [List.foldl_cons]
      exact ih _ e (edges_mono_edgeStep f p a e he)

theorem mem_edges_edgeFold (f : String → Option String) (ms : List FamilyMember) :
    ∀ (p : DiGraph × List Edge) (m : FamilyMember), m ∈ ms → m.ParentName ≠ "" →
      ∀ pid, f m.ParentName = some pid →
        pid ∈ p.1.vertexIDs → m.ID ∈ p.1.vertexIDs →
        Edge.mk pid m.ID ∈ (ms.foldl (edgeStep f) p).1.edges := by
  induction ms with
  | nil => intro p m hm; simp at hm
  | cons a ms ih =>
      intro p m hm hp pid hf hpid hmid
      simp only [List.foldl_cons]
      rcases List.mem_cons.mp hm with h | h
      · subst h
        apply edges_mono_edgeFold
        show Edge.mk pid m.ID ∈ (edgeStep f p m).1.edges
        unfold edgeStep
        rw [if_pos hp, hf]
        exact DiGraph.mem_edges_addEdge_self p.1 pid m.ID hpid hmid
      · apply ih _ m h hp pid hf
        · show pid ∈ (edgeStep f p a).1.vertexIDs
          unfold DiGraph.vertexIDs
          rw [vertices_edgeStep]
          exact hpid
        · show m.ID ∈ (edgeStep f p a).1.vertexIDs
          unfold DiGraph.vertexIDs
          rw [vertices_edgeStep]
          exact hmid

/-! ## C1 -/

/-- C1: after `buildFamilyGraph` runs, the graph contains exactly one node
per unique entity ID (vertex IDs are pairwise distinct and every vertex ID
is the ID of an input entity), and every input entity's ID is a node —
regardless of whether any parent reference resolved to an edge. -/
theorem C1_one_node_per_unique_ID (members : List FamilyMember) :
    ((buildFamilyGraph members).2.vertexIDs.Nodup) ∧
    (∀ m ∈ members, m.ID ∈ (buildFamilyGraph members).2.vertexIDs) ∧
    (∀ x ∈ (buildFamilyGraph members).2.vertexIDs, ∃ m ∈ members, m.ID = x) := by
  have hv : (buildFamilyGraph members).2.vertexIDs =
      ((registerAll members).1).vertexIDs := by
    unfold DiGraph.vertexIDs
    rw [vertices_buildFamilyGraph]
  refine ⟨?_, ?_, ?_⟩
  · rw [hv]
    exact vertexIDs_registerFold_nodup members _ (by simp [DiGraph.vertexIDs])
  · intro m hm
    rw [hv]
    exact mem_vertexIDs_registerFold members _ m hm
  · intro x hx
    rw [hv] at hx
    rcases vertexIDs_registerFold_subset members _ x hx with h | h
    · simp [DiGraph.vertexIDs] at h
    · exact h

/-- A resolved parent reference always lands in the returned edge slice. -/
theorem mem_Edges_of_resolved (members : List FamilyMember) (m : FamilyMember)
    (hm : m ∈ members) (hp : m.ParentName ≠ "") (pid : String)
    (hf : nameLookup members m.ParentName = some pid) :
    Edge.mk pid m.ID ∈ (buildFamilyGraph members).1.Edges := by
  rw [Edges_buildFamilyGraph]
  apply List.mem_filterMap.mpr
  exact ⟨m, hm, by rw [if_neg hp, hf]; rfl⟩

/-- A resolved parent reference always lands in the library graph's edge
set (both endpoints are registered vertices, so `AddEdge` cannot fail with
`ErrVertexNotFound`; a duplicate edge is already present). -/
theorem mem_graph_edges_of_resolved (members : List FamilyMember) (m : FamilyMember)
    (hm : m ∈ members) (hp : m.ParentName ≠ "") (pid : String)
    (hf : nameLookup members m.ParentName = some pid) :
    Edge.mk pid m.ID ∈ (buildFamilyGraph members).2.edges := by
  show Edge.mk pid m.ID ∈
    (addFamilyEdges (registerAll members).1 (registerAll members).2 members).1.edges
  unfold addFamilyEdges
  apply mem_edges_edgeFold (registerAll members).2 members _ m hm hp pid
  · rw [nameToID_eq_nameLookup]; exact hf
  · obtain ⟨m', hm', _, hid⟩ := nameLookup_some members m.ParentName pid hf
    show pid ∈ ((registerAll members).1).vertexIDs
    rw [← hid]
    exact mem_vertexIDs_registerFold members _ m' hm'
  · exact mem_vertexIDs_registerFold members _ m hm

/-! ## C2 -/

/-- C2: every entity with a non-empty parent name that resolves in the
name→ID map yields the directed edge parent-ID → child-ID, both in the
returned edge slice and in the library graph; and the full edge slice is
exactly the per-entity contributions (an unresolvable or empty parent name
contributes nothing, and the function has no error path at all). -/
theorem C2_edge_resolution (members : List FamilyMember) :
    (∀ m ∈ members, m.ParentName ≠ "" →
      ∀ pid, (registerAll members).2 m.ParentName = some pid →
        Edge.mk pid m.ID ∈ (buildFamilyGraph members).1.Edges ∧
        Edge.mk pid m.ID ∈ (buildFamilyGraph members).2.edges) ∧
    ((buildFamilyGraph members).1.Edges =
      members.filterMap (fun m =>
        if m.ParentName = "" then none
        else ((registerAll members).2 m.ParentName).map
          (fun pid => Edge.mk pid m.ID))) := by
  constructor
  · intro m hm hp pid hf
    rw [nameToID_eq_nameLookup] at hf
    exact ⟨mem_Edges_of_resolved members m hm hp pid hf,
      mem_graph_edges_of_resolved members m hm hp pid hf⟩
  · rw [Edges_buildFamilyGraph]
    apply List.filterMap_congr
    intro m _
    by_cases hp : m.ParentName = ""
    · simp [hp]
    · simp [hp, nameToID_eq_nameLookup]

/-- Closed witness for `C2_edge_resolution` on a two-member family. -/
theorem C2_edge_resolution_witness :
    Edge.mk "1" "2" ∈
      (buildFamilyGraph [⟨"1", "A", ""⟩, ⟨"2", "B", "A"⟩]).1.Edges ∧
    Edge.mk "1" "2" ∈
      (buildFamilyGraph [⟨"1", "A", ""⟩, ⟨"2", "B", "A"⟩]).2.edges := by
  have h := (C2_edge_resolution [⟨"1", "A", ""⟩, ⟨"2", "B", "A"⟩]).1
    ⟨"2", "B", "A"⟩ (by decide) (by decide) "1" (by decide)
  exact h

/-! ## C8 -/

/-- C8: when two entities share a display name, the name→ID map holds the
ID of the later one (the later write overwrites the earlier), so every
parent reference to that name resolves to the later entity's ID. -/
theorem C8_later_entity_overwrites (l1 l2 l3 : List FamilyMember)
    (m1 m2 : FamilyMember) (hname : m1.Name = m2.Name)
    (hlast : ∀ x ∈ l3, x.Name ≠ m2.Name) :
    (registerAll (l1 ++ m1 :: l2 ++ m2 :: l3)).2 m2.Name = some m2.ID ∧
    (∀ c ∈ l1 ++ m1 :: l2 ++ m2 :: l3, c.ParentName = m2.Name → m2.Name ≠ "" →
      Edge.mk m2.ID c.ID ∈
        (buildFamilyGraph (l1 ++ m1 :: l2 ++ m2 :: l3)).1.Edges) := by
  have hmem : m2 ∈ l1 ++ m1 :: l2 ++ m2 :: l3 := by simp
  have hlook : nameLookup (l1 ++ m1 :: l2 ++ m2 :: l3) m2.Name = some m2.ID := by
    unfold nameLookup
    have hrev : (l1 ++ m1 :: l2 ++ m2 :: l3).reverse =
        l3.reverse ++ m2 :: ((m1 :: l2).reverse.append l1.reverse) := by
      simp
    rw [hrev, List.find?_append]
    have h3 : l3.reverse.find? (fun m => m.Name == m2.Name) = none := by
      apply List.find?_eq_none.mpr
      intro x hx
      simpa using hlast x (List.mem_reverse.mp hx)
    rw [h3]
    have h2 : (m2 :: ((m1 :: l2).reverse.append l1.reverse)).find?
        (fun m => m.Name == m2.Name) = some m2 := by
      simp [List.find?]
    rw [h2]
    rfl
  refine ⟨by rw [nameToID_eq_nameLookup]; exact hlook, ?_⟩
  intro c hc hcp hne
  apply mem_Edges_of_resolved _ c hc (by rw [hcp]; exact hne) m2.ID
  rw [hcp, hlook]

/-- Closed witness for `C8_later_entity_overwrites`: two members named
"Bob"; the child referencing "Bob" gets the second Bob as parent. -/
theorem C8_later_entity_overwrites_witness :
    (registerAll [⟨"1", "Bob", ""⟩, ⟨"2", "Bob", ""⟩, ⟨"3", "Carl", "Bob"⟩]).2
        "Bob" = some "2" ∧
    Edge.mk "2" "3" ∈
      (buildFamilyGraph
        [⟨"1", "Bob", ""⟩, ⟨"2", "Bob", ""⟩, ⟨"3", "Carl", "Bob"⟩]).1.Edges := by
  have h := C8_later_entity_overwrites [] [] [⟨"3", "Carl", "Bob"⟩]
    ⟨"1", "Bob", ""⟩ ⟨"2", "Bob", ""⟩ rfl (by decide)
  exact ⟨h.1, h.2 ⟨"3", "Carl", "Bob"⟩ (by decide) rfl (by decide)⟩

/-! ## C10 -/

/-- C10: every edge in the returned edge list connects IDs of input
entities: `To` is the ID of the entity that carried the parent reference,
and `From` is the ID of an input entity whose name equals that reference
(the last such entity, per the map). -/
theorem C10_edge_endpoints_are_input_IDs (members : List FamilyMember) :
    ∀ e ∈ (buildFamilyGraph members).1.Edges,
      ∃ c ∈ members, e.To = c.ID ∧ c.ParentName ≠ "" ∧
        ∃ p ∈ members, p.Name = c.ParentName ∧ e.From = p.ID := by
  intro e he
  rw [Edges_buildFamilyGraph] at he
  obtain ⟨c, hc, hce⟩ := List.mem_filterMap.mp he
  by_cases hp : c.ParentName = ""
  · rw [if_pos hp] at hce; exact absurd hce (by simp)
  · rw [if_neg hp] at hce
    cases hf : nameLookup members c.ParentName with
    | none => rw [hf] at hce; exact absurd hce (by simp)
    | some pid =>
        rw [hf] at hce
        obtain ⟨p, hpm, hpn, hpid⟩ := nameLookup_some members c.ParentName pid hf
        refine ⟨c, hc, ?_, hp, p, hpm, hpn, ?_⟩
        · rw [← Option.some_inj.mp hce]
        · rw [← Option.some_inj.mp hce]
          simpa using hpid.symm

/-- Closed witness for `C10_edge_endpoints_are_input_IDs`. -/
theorem C10_edge_endpoints_witness :
    ∃ c ∈ [FamilyMember.mk "1" "A" "", ⟨"2", "B", "A"⟩],
      (Edge.mk "1" "2").To = c.ID ∧ c.ParentName ≠ "" ∧
        ∃ p ∈ [FamilyMember.mk "1" "A" "", ⟨"2", "B", "A"⟩],
          p.Name = c.ParentName ∧ (Edge.mk "1" "2").From = p.ID :=
  C10_edge_endpoints_are_input_IDs [⟨"1", "A", ""⟩, ⟨"2", "B", "A"⟩]
    (Edge.mk "1" "2") (by decide)

/-! ## Query engine (library operations, modelled from the spec) -/

/-- Successor IDs of a vertex: targets of the outgoing edges, in
edge-insertion order. -/
def successors (E : List Edge) (v : String) : List String :=
  (E.filter (fun e => e.From = v)).map Edge.To

/-- Modelled from the spec: the library's `AdjacencyMap` (successor set of
each vertex — "successors = children"); the library source is not part of
this repository. -/
def DiGraph.successorIDs (g : DiGraph) (id : String) : List String :=
  successors g.edges id

/-- Modelled from the spec: the library's `PredecessorMap` (predecessor
set of each vertex — "predecessors = parents"); the library source is not
part of this repository. -/
def DiGraph.predecessorIDs (g : DiGraph) (id : String) : List String :=
  (g.edges.filter (fun e => e.To = id)).map Edge.From

/-- The roots loop of `main`: iterate the input entity sequence and keep
the members whose predecessor set is empty. -/
def findRoots (members : List FamilyMember) (g : DiGraph) : List FamilyMember :=
  members.filter (fun m => (g.predecessorIDs m.ID).isEmpty)

/-- The leaves loop of `main`: iterate the input entity sequence and keep
the members whose successor (adjacency) set is empty. -/
def findLeaves (members : List FamilyMember) (g : DiGraph) : List FamilyMember :=
  members.filter (fun m => (g.successorIDs m.ID).isEmpty)

/-! ## C5 -/

/-- C5: the roots query reports exactly the entities with an empty
predecessor set and the leaves query exactly those with an empty successor
set, each listed in input order (a sublist of the input sequence); an
isolated node is reported by both. -/
theorem C5_roots_and_leaves (members : List FamilyMember) :
    (∀ m, m ∈ findRoots members (buildFamilyGraph members).2 ↔
        m ∈ members ∧ ∀ e ∈ (buildFamilyGraph members).2.edges, e.To ≠ m.ID) ∧
    (∀ m, m ∈ findLeaves members (buildFamilyGraph members).2 ↔
        m ∈ members ∧ ∀ e ∈ (buildFamilyGraph members).2.edges, e.From ≠ m.ID) ∧
    (findRoots members (buildFamilyGraph members).2).Sublist members ∧
    (findLeaves members (buildFamilyGraph members).2).Sublist members ∧
    (∀ m ∈ members,
      (∀ e ∈ (buildFamilyGraph members).2.edges, e.To ≠ m.ID ∧ e.From ≠ m.ID) →
      m ∈ findRoots members (buildFamilyGraph members).2 ∧
        m ∈ findLeaves members (buildFamilyGraph members).2) := by
  have hroot : ∀ m, m ∈ findRoots members (buildFamilyGraph members).2 ↔
      m ∈ members ∧ ∀ e ∈ (buildFamilyGraph members).2.edges, e.To ≠ m.ID := by
    intro m
    unfold findRoots DiGraph.predecessorIDs
    rw [List.mem_filter]
    simp [List.isEmpty_iff, List.filter_eq_nil_iff]
  have hleaf : ∀ m, m ∈ findLeaves members (buildFamilyGraph members).2 ↔
      m ∈ members ∧ ∀ e ∈ (buildFamilyGraph members).2.edges, e.From ≠ m.ID := by
    intro m
    unfold findLeaves DiGraph.successorIDs successors
    rw [List.mem_filter]
    simp [List.isEmpty_iff, List.filter_eq_nil_iff]
  refine ⟨hroot, hleaf, List.filter_sublist _, List.filter_sublist _, ?_⟩
  intro m hm hiso
  exact ⟨(hroot m).mpr ⟨hm, fun e he => (hiso e he).1⟩,
    (hleaf m).mpr ⟨hm, fun e he => (hiso e he).2⟩⟩

/-- Closed witness for `C5_roots_and_leaves`: a family whose second member
is isolated (unresolvable parent name), reported as both root and leaf. -/
theorem C5_roots_and_leaves_witness :
    FamilyMember.mk "2" "B" "nobody" ∈
      findRoots [⟨"1", "A", ""⟩, ⟨"2", "B", "nobody"⟩]
        (buildFamilyGraph [⟨"1", "A", ""⟩, ⟨"2", "B", "nobody"⟩]).2 ∧
    FamilyMember.mk "2" "B" "nobody" ∈
      findLeaves [⟨"1", "A", ""⟩, ⟨"2", "B", "nobody"⟩]
        (buildFamilyGraph [⟨"1", "A", ""⟩, ⟨"2", "B", "nobody"⟩]).2 :=
  (C5_roots_and_leaves [⟨"1", "A", ""⟩, ⟨"2", "B", "nobody"⟩]).2.2.2.2
    ⟨"2", "B", "nobody"⟩ (by decide) (by decide)

/-! ## Traversals (modelled from the spec) -/

/-- The error taxonomy of the spec that is visible to a traversal query. -/
inductive GraphError where
  | nodeNotFound
deriving DecidableEq, Repr

/-- Modelled from the spec: the depth-first visit underlying `graph.DFS`
(library source not part of this repository): visit a node, then
recursively its first unvisited successor before any sibling, successor
order = edge-insertion order.  `fuel` only bounds the recursion depth; it
is chosen large enough to never run out. -/
def dfsVisit (E : List Edge) : Nat → String → List String → List String
  | 0, _, vis => vis
  | fuel + 1, v, vis =>
      if v ∈ vis then vis
      else (successors E v).foldl (fun acc u => dfsVisit E fuel u acc) (vis ++ [v])

/-- Modelled from the spec: `DescendantTrace(startID)` — `graph.DFS` from
`startID`, failing with `NodeNotFound` when `startID` is not a vertex. -/
def descendantTrace (g : DiGraph) (start : String) : Except GraphError (List String) :=
  if start ∈ g.vertexIDs then
    Except.ok (dfsVisit g.edges (g.vertices.length + 1) start [])
  else Except.error GraphError.nodeNotFound

/-- Modelled from the spec: the queue loop underlying `graph.BFS`
(library source not part of this repository): dequeue a node, enqueue its
not-yet-seen successors in edge order; a node is marked seen when
enqueued, and the visit order is the enqueue order. -/
def bfsLoop (E : List Edge) : Nat → List String → List String → List String
  | 0, _, seen => seen
  | _ + 1, [], seen => seen
  | fuel + 1, v :: q, seen =>
      bfsLoop E fuel (q ++ (successors E v).filter (fun u => u ∉ seen))
        (seen ++ (successors E v).filter (fun u => u ∉ seen))

/-- Modelled from the spec: `GenerationSweep(startID)` — `graph.BFS` from
`startID`, failing with `NodeNotFound` when `startID` is not a vertex. -/
def generationSweep (g : DiGraph) (start : String) : Except GraphError (List String) :=
  if start ∈ g.vertexIDs then
    Except.ok (bfsLoop g.edges (g.vertices.length + 1) [start] [start])
  else Except.error GraphError.nodeNotFound

/-! ## C6 -/

/-- C6: querying a start ID that is not a node of the built graph makes
both traversal queries fail with `NodeNotFound`, returned to the caller
rather than silently ignored. -/
theorem C6_missing_start_errors (members : List FamilyMember) (start : String)
    (habs : start ∉ (buildFamilyGraph members).2.vertexIDs) :
    descendantTrace (buildFamilyGraph members).2 start =
      Except.error GraphError.nodeNotFound ∧
    generationSweep (buildFamilyGraph members).2 start =
      Except.error GraphError.nodeNotFound := by
  unfold descendantTrace generationSweep
  rw [if_neg habs, if_neg habs]
  exact ⟨rfl, rfl⟩

/-- Closed witness for `C6_missing_start_errors`. -/
theorem C6_missing_start_errors_witness :
    descendantTrace (buildFamilyGraph [⟨"1", "A", ""⟩]).2 "7" =
      Except.error GraphError.nodeNotFound ∧
    generationSweep (buildFamilyGraph [⟨"1", "A", ""⟩]).2 "7" =
      Except.error GraphError.nodeNotFound :=
  C6_missing_start_errors [⟨"1", "A", ""⟩] "7" (by decide)

/-! ## Rendering (`renderPNG`) -/

/-- Go errors as seen by this program: an error produced by `cmd.Run`,
or an error built by `fmt.Errorf` with `%w` wrapping a cause. -/
inductive GoError where
  | execError (msg : String)
  | wrapped (msg : String) (cause : GoError)
deriving DecidableEq, Repr

def dotLineNode (n : FamilyMember) : String :=
  "  \"" ++ n.ID ++ "\" [label=\"" ++ n.Name ++ "\"];\n"

def dotLineEdge (e : Edge) : String :=
  "  \"" ++ e.From ++ "\" -> \"" ++ e.To ++ "\";\n"

def dotHeader : String :=
  "digraph G \x7b\n" ++ "  rankdir=TB;\n" ++ "  node [shape=box, style=rounded];\n"

def strConcat : List String → String
  | [] => ""
  | s :: rest => s ++ strConcat rest

/-- The DOT description text written by `renderPNG` to the `dot` command's
standard input: header, one line per node (label = display name), one line
per edge, closing brace. -/
def dotText (g : GraphOutput) : String :=
  dotHeader ++ strConcat (g.Nodes.map dotLineNode) ++
    strConcat (g.Edges.map dotLineEdge) ++ "\x7d\n"

def renderFailMsg : String := "failed to generate graph image. Is Graphviz installed?"

/-- Go `renderPNG`, with the external invocation `cmd.Run` (command `dot`,
args `-Tpng -o outPath`, the DOT text on stdin) abstracted as an oracle
`run` returning `none` on success and `some e` on failure. -/
def renderPNG (run : String → String → Option GoError) (graphOut : GraphOutput)
    (outPath : String) : Option GoError :=
  match run (dotText graphOut) outPath with
  | some e => some (GoError.wrapped renderFailMsg e)
  | none => none

/-- The hardcoded dataset of `main`. -/
def familyData : List FamilyMember :=
  [⟨"1", "Jordon D", ""⟩, ⟨"2", "Robert Smith", ""⟩,
   ⟨"3", "Danis Jordan", "Jordon D"⟩, ⟨"4", "John Smith", "Robert Smith"⟩,
   ⟨"5", "Maria Smith", "Robert Smith"⟩, ⟨"6", "Leo Smith", "John Smith"⟩]

/-- The process exit status of `main`: `os.Exit(1)` when `renderPNG`
returns an error, normal termination (status 0) otherwise. -/
def mainExit (run : String → String → Option GoError) : Nat :=
  match renderPNG run (buildFamilyGraph familyData).1 "family_tree.png" with
  | some _ => 1
  | none => 0

/-! ## C7 -/

/-- C7: `renderPNG` returns an error exactly when the external `dot`
invocation fails, and that error wraps the underlying cause; it returns
nil on success, and the process exits with status 0 on success and
non-zero when the render step fails. -/
theorem C7_render_error_and_exit :
    (∀ (run : String → String → Option GoError) (g : GraphOutput) (outPath : String),
      (renderPNG run g outPath = none ↔ run (dotText g) outPath = none) ∧
      (∀ e, run (dotText g) outPath = some e →
        renderPNG run g outPath = some (GoError.wrapped renderFailMsg e))) ∧
    (∀ run : String → String → Option GoError,
      (mainExit run = 0 ↔
        renderPNG run (buildFamilyGraph familyData).1 "family_tree.png" = none) ∧
      (mainExit run ≠ 0 ↔
        ∃ e, renderPNG run (buildFamilyGraph familyData).1 "family_tree.png" = some e)) := by
  constructor
  · intro run g outPath
    constructor
    · unfold renderPNG
      cases h : run (dotText g) outPath <;> simp [h]
    · intro e he
      unfold renderPNG
      rw [he]
  · intro run
    unfold mainExit
    cases h : renderPNG run (buildFamilyGraph familyData).1 "family_tree.png" <;>
      simp [h]

/-- Closed witness for `C7_render_error_and_exit`: a failing `dot`
invocation produces the wrapped error, and a succeeding one leaves the
exit status at 0. -/
theorem C7_render_error_and_exit_witness :
    renderPNG (fun _ _ => some (GoError.execError "enoent"))
        (buildFamilyGraph familyData).1 "family_tree.png" =
      some (GoError.wrapped renderFailMsg (GoError.execError "enoent")) ∧
    mainExit (fun _ _ => none) = 0 := by
  constructor
  · exact (C7_render_error_and_exit.1 (fun _ _ => some (GoError.execError "enoent"))
      (buildFamilyGraph familyData).1 "family_tree.png").2
      (GoError.execError "enoent") rfl
  · exact (C7_render_error_and_exit.2 (fun _ _ => none)).1.mpr rfl

/-! ## A standard DOT reader (C9), modelled from the spec -/

/-- Consume an expected literal character sequence. -/
def dropLit : List Char → List Char → Option (List Char)
  | [], s => some s
  | _ :: _, [] => none
  | p :: ps, c :: cs => if c = p then dropLit ps cs else none

/-- Read a double-quoted string that was opened already: everything up to
the next `"` (DOT quoted strings may span lines). -/
def readQuoted : List Char → Option (List Char × List Char)
  | [] => none
  | c :: cs =>
      if c = '"' then some ([], cs)
      else
        match readQuoted cs with
        | some (s, rest) => some (c :: s, rest)
        | none => none

def itemOpen : List Char := [' ', ' ', '"']

def nodeMid : List Char := [' ', '[', 'l', 'a', 'b', 'e', 'l', '=', '"']

def nodeClose : List Char := [']', ';', '\n']

def edgeMid : List Char := [' ', '-', '>', ' ', '"']

def edgeClose : List Char := [';', '\n']

def endLit : List Char := ['\x7d', '\n']

/-- Parse the statements of the emitted digraph body: node statements
`"id" [label="name"];` and edge statements `"from" -> "to";`, until the
closing brace. -/
def parseItems : Nat → List Char →
    Option (List (String × String) × List (String × String))
  | 0, _ => none
  | fuel + 1, s =>
      if s = endLit then some ([], [])
      else
        (dropLit itemOpen s).bind fun s1 =>
        (readQuoted s1).bind fun p =>
        match dropLit nodeMid p.2 with
        | some s3 =>
            (readQuoted s3).bind fun q =>
            (dropLit nodeClose q.2).bind fun s5 =>
            (parseItems fuel s5).map fun r =>
              ((String.mk p.1, String.mk q.1) :: r.1, r.2)
        | none =>
            (dropLit edgeMid p.2).bind fun s3 =>
            (readQuoted s3).bind fun q =>
            (dropLit edgeClose q.2).bind fun s5 =>
            (parseItems fuel s5).map fun r =>
              (r.1, (String.mk p.1, String.mk q.1) :: r.2)

/-- Modelled from the spec: a "standard directed-graph grammar reader"
for the emitted DOT dialect (no such reader exists in the repository).
Returns the node list (id, label) and edge list (from, to). -/
def parseDot (s : String) :
    Option (List (String × String) × List (String × String)) :=
  match dropLit dotHeader.data s.data with
  | none => none
  | some rest => parseItems (rest.length + 1) rest

theorem dropLit_append (pat t : List Char) : dropLit pat (pat ++ t) = some t := by
  induction pat with
  | nil => rfl
  | cons p ps ih => simp [dropLit, ih]

theorem readQuoted_append (s t : List Char) (h : '"' ∉ s) :
    readQuoted (s ++ '"' :: t) = some (s, t) := by
  induction s with
  | nil => simp [readQuoted]
  | cons c cs ih =>
      have hc : c ≠ '"' := fun hc => h (hc ▸ List.mem_cons_self c cs)
      have hcs : '"' ∉ cs := fun hm => h (List.mem_cons_of_mem c hm)
      simp [readQuoted, hc, ih hcs]

theorem data_dotLineNode (n : FamilyMember) :
    (dotLineNode n).data =
      itemOpen ++ n.ID.data ++ ('"' :: nodeMid) ++ n.Name.data ++
        ('"' :: nodeClose) := by
  unfold dotLineNode
  rw [String.data_append, String.data_append, String.data_append,
    String.data_append]
  rfl

theorem data_dotLineEdge (e : Edge) :
    (dotLineEdge e).data =
      itemOpen ++ e.From.data ++ ('"' :: edgeMid) ++ e.To.data ++
        ('"' :: edgeClose) := by
  unfold dotLineEdge
  rw [String.data_append, String.data_append, String.data_append,
    String.data_append]
  rfl

theorem data_strConcat (l : List String) :
    (strConcat l).data = (l.map String.data).flatten := by
  induction l with
  | nil => rfl
  | cons s rest ih => simp [strConcat, String.data_append, ih]

theorem itemOpen_append_ne_endLit (t : List Char) : itemOpen ++ t ≠ endLit := by
  intro h
  simp [itemOpen, endLit] at h

theorem parseItems_edge (fuel : Nat) (e : Edge) (rest : List Char)
    (hf : '"' ∉ e.From.data) (ht : '"' ∉ e.To.data) :
    parseItems (fuel + 1) ((dotLineEdge e).data ++ rest) =
      (parseItems fuel rest).map fun r => (r.1, (e.From, e.To) :: r.2) := by
  have hsplit : (dotLineEdge e).data ++ rest =
      itemOpen ++ (e.From.data ++ '"' ::
        (edgeMid ++ (e.To.data ++ '"' :: (edgeClose ++ rest)))) := by
    rw [data_dotLineEdge]; simp
  rw [hsplit]
  conv_lhs => rw [parseItems]
  rw [if_neg (itemOpen_append_ne_endLit _), dropLit_append]
  simp only [Option.some_bind]
  rw [readQuoted_append _ _ hf]
  simp only [Option.some_bind]
  have h2 : dropLit nodeMid
      (edgeMid ++ (e.To.data ++ '"' :: (edgeClose ++ rest))) = none := by
    simp [edgeMid, nodeMid, dropLit]
  rw [h2, dropLit_append]
  simp only [Option.some_bind]
  rw [readQuoted_append _ _ ht]
  simp only [Option.some_bind]
  rw [dropLit_append]
  simp only [Option.some_bind]

theorem parseItems_node (fuel : Nat) (n : FamilyMember) (rest : List Char)
    (hid : '"' ∉ n.ID.data) (hname : '"' ∉ n.Name.data) :
    parseItems (fuel + 1) ((dotLineNode n).data ++ rest) =
      (parseItems fuel rest).map fun r => ((n.ID, n.Name) :: r.1, r.2) := by
  have hsplit : (dotLineNode n).data ++ rest =
      itemOpen ++ (n.ID.data ++ '"' ::
        (nodeMid ++ (n.Name.data ++ '"' :: (nodeClose ++ rest)))) := by
    rw [data_dotLineNode]; simp
  rw [hsplit]
  conv_lhs => rw [parseItems]
  rw [if_neg (itemOpen_append_ne_endLit _), dropLit_append]
  simp only [Option.some_bind]
  rw [readQuoted_append _ _ hid]
  simp only [Option.some_bind]
  rw [dropLit_append]
  simp only [Option.some_bind]
  rw [readQuoted_append _ _ hname]
  simp only [Option.some_bind]
  rw [dropLit_append]
  simp only [Option.some_bind]

theorem parseItems_edges_all (edges : List Edge) :
    ∀ fuel, edges.length + 1 ≤ fuel →
      (∀ e ∈ edges, '"' ∉ e.From.data ∧ '"' ∉ e.To.data) →
      parseItems fuel ((strConcat (edges.map dotLineEdge)).data ++ endLit) =
        some ([], edges.map fun e => (e.From, e.To)) := by
  induction edges with
  | nil =>
      intro fuel hfuel _
      match fuel, hfuel with
      | f + 1, _ =>
          show parseItems (f + 1) endLit = some ([], [])
          simp [parseItems]
  | cons e es ih =>
      intro fuel hfuel hgood
      match fuel, hfuel with
      | f + 1, hfuel =>
          have hsplit : (strConcat ((e :: es).map dotLineEdge)).data ++ endLit =
              (dotLineEdge e).data ++
                ((strConcat (es.map dotLineEdge)).data ++ endLit) := by
            show (dotLineEdge e ++ strConcat (es.map dotLineEdge)).data ++ endLit = _
            rw [String.data_append, List.append_assoc]
          rw [hsplit, parseItems_edge f e _
            (hgood e (List.mem_cons_self e es)).1 (hgood e (List.mem_cons_self e es)).2]
          rw [ih f (by simpa using Nat.lt_succ_iff.mp (by simpa using hfuel))
            (fun x hx => hgood x (List.mem_cons_of_mem e hx))]
          rfl

theorem parseItems_nodes_all (nodes : List FamilyMember) (edges : List Edge) :
    ∀ fuel, nodes.length + edges.length + 1 ≤ fuel →
      (∀ n ∈ nodes, '"' ∉ n.ID.data ∧ '"' ∉ n.Name.data) →
      (∀ e ∈ edges, '"' ∉ e.From.data ∧ '"' ∉ e.To.data) →
      parseItems fuel ((strConcat (nodes.map dotLineNode)).data ++
          ((strConcat (edges.map dotLineEdge)).data ++ endLit)) =
        some (nodes.map fun n => (n.ID, n.Name),
              edges.map fun e => (e.From, e.To)) := by
  induction nodes with
  | nil =>
      intro fuel hfuel _ hE
      show parseItems fuel (("" : String).data ++ _) = _
      rw [show ("" : String).data = [] from rfl, List.nil_append]
      simpa using parseItems_edges_all edges fuel (by omega) hE
  | cons n ns ih =>
      intro fuel hfuel hN hE
      match fuel, hfuel with
      | f + 1, hfuel =>
          have hsplit : (strConcat ((n :: ns).map dotLineNode)).data ++
              ((strConcat (edges.map dotLineEdge)).data ++ endLit) =
              (dotLineNode n).data ++ ((strConcat (ns.map dotLineNode)).data ++
                ((strConcat (edges.map dotLineEdge)).data ++ endLit)) := by
            show (dotLineNode n ++ strConcat (ns.map dotLineNode)).data ++ _ = _
            rw [String.data_append, List.append_assoc]
          rw [hsplit, parseItems_node f n _
            (hN n (List.mem_cons_self n ns)).1 (hN n (List.mem_cons_self n ns)).2]
          rw [ih f (by simp at hfuel ⊢; omega)
            (fun x hx => hN x (List.mem_cons_of_mem n hx)) hE]
          rfl

theorem length_strConcat_nodes (nodes : List FamilyMember) :
    nodes.length ≤ (strConcat (nodes.map dotLineNode)).data.length := by
  induction nodes with
  | nil => simp
  | cons n ns ih =>
      show _ ≤ (dotLineNode n ++ strConcat (ns.map dotLineNode)).data.length
      rw [String.data_append, List.length_append]
      have : 1 ≤ (dotLineNode n).data.length := by
        rw [data_dotLineNode]
        simp [itemOpen]
      simpa [Nat.add_comm] using Nat.add_le_add this ih

theorem length_strConcat_edges (edges : List Edge) :
    edges.length ≤ (strConcat (edges.map dotLineEdge)).data.length := by
  induction edges with
  | nil => simp
  | cons e es ih =>
      show _ ≤ (dotLineEdge e ++ strConcat (es.map dotLineEdge)).data.length
      rw [String.data_append, List.length_append]
      have : 1 ≤ (dotLineEdge e).data.length := by
        rw [data_dotLineEdge]
        simp [itemOpen]
      simpa [Nat.add_comm] using Nat.add_le_add this ih

/-! ## C9 -/

/-- The original C9 claim fails: a display name containing a double quote
is written unescaped into the DOT text, and re-parsing yields a different
node set (label `""` instead of `"\""`). -/
theorem C9_quote_counterexample :
    parseDot (dotText (GraphOutput.mk [FamilyMember.mk "1" "\"" ""] [])) ≠
      some ((GraphOutput.mk [FamilyMember.mk "1" "\"" ""] []).Nodes.map
              (fun n => (n.ID, n.Name)),
            (GraphOutput.mk [FamilyMember.mk "1" "\"" ""] []).Edges.map
              (fun e => (e.From, e.To))) := by
  decide

/-- C9 (amended): for every `GraphOutput` whose node IDs, labels and edge
endpoints contain no double quote, re-parsing the emitted DOT text with
the standard reader yields exactly the node list (ID, label = name) and
the edge list of the input. -/
theorem C9_dot_roundtrip (g : GraphOutput)
    (hN : ∀ n ∈ g.Nodes, '"' ∉ n.ID.data ∧ '"' ∉ n.Name.data)
    (hE : ∀ e ∈ g.Edges, '"' ∉ e.From.data ∧ '"' ∉ e.To.data) :
    parseDot (dotText g) =
      some (g.Nodes.map (fun n => (n.ID, n.Name)),
            g.Edges.map (fun e => (e.From, e.To))) := by
  unfold parseDot dotText
  have hdata : (dotHeader ++ strConcat (g.Nodes.map dotLineNode) ++
      strConcat (g.Edges.map dotLineEdge) ++ "\x7d\n").data =
      dotHeader.data ++ ((strConcat (g.Nodes.map dotLineNode)).data ++
        ((strConcat (g.Edges.map dotLineEdge)).data ++ endLit)) := by
    rw [String.data_append, String.data_append, String.data_append,
      List.append_assoc, List.append_assoc]
    rfl
  rw [hdata, dropLit_append]
  apply parseItems_nodes_all
  · have h1 := length_strConcat_nodes g.Nodes
    have h2 := length_strConcat_edges g.Edges
    simp only [List.length_append]
    omega
  · exact hN
  · exact hE

/-- Closed witness for `C9_dot_roundtrip`. -/
theorem C9_dot_roundtrip_witness :
    parseDot (dotText (GraphOutput.mk
        [FamilyMember.mk "1" "A" "", FamilyMember.mk "2" "B" "A"]
        [Edge.mk "1" "2"])) =
      some ([("1", "A"), ("2", "B")], [("1", "2")]) :=
  C9_dot_roundtrip
    (GraphOutput.mk [FamilyMember.mk "1" "A" "", FamilyMember.mk "2" "B" "A"]
      [Edge.mk "1" "2"])
    (by decide) (by decide)

/-! ## Reachability along the directed edges -/

def edgeRel (E : List Edge) (a b : String) : Prop := Edge.mk a b ∈ E

/-- `Reaches E u v`: `v` is reachable from `u` via directed edges. -/
def Reaches (E : List Edge) : String → String → Prop :=
  Relation.ReflTransGen (edgeRel E)

/-- No directed cycle. -/
def Acyclic (E : List Edge) : Prop := ∀ v, ¬ Relation.TransGen (edgeRel E) v v

theorem mem_successors {E : List Edge} {v u : String} :
    u ∈ successors E v ↔ Edge.mk v u ∈ E := by
  unfold successors
  simp only [List.mem_map, List.mem_filter, decide_eq_true_eq]
  constructor
  · rintro ⟨e, ⟨he, hf⟩, ht⟩
    cases e
    simp only at hf ht
    rw [← hf, ← ht]
    exact he
  · intro h
    exact ⟨Edge.mk v u, ⟨h, rfl⟩, rfl⟩

/-! ## Invariants of the modelled depth-first visit -/

theorem dfsFold_extends (E : List Edge) (fuel : Nat)
    (h : ∀ v vis, vis <+: dfsVisit E fuel v vis) :
    ∀ (us acc : List String),
      acc <+: us.foldl (fun acc u => dfsVisit E fuel u acc) acc := by
  intro us
  induction us with
  | nil => intro acc; exact List.prefix_refl acc
  | cons u us ihu =>
      intro acc
      simp only [List.foldl_cons]
      exact (h u acc).trans (ihu (dfsVisit E fuel u acc))

theorem dfsVisit_extends (E : List Edge) :
    ∀ fuel v vis, vis <+: dfsVisit E fuel v vis := by
  intro fuel
  induction fuel with
  | zero => intro v vis; exact List.prefix_refl vis
  | succ fuel ih =>
      intro v vis
      show vis <+: (if v ∈ vis then vis
        else (successors E v).foldl (fun acc u => dfsVisit E fuel u acc) (vis ++ [v]))
      split
      · exact List.prefix_refl vis
      · exact (List.prefix_append vis [v]).trans (dfsFold_extends E fuel ih _ _)

theorem dfsVisit_subset (E : List Edge) (N : List String)
    (hcl : ∀ w u, u ∈ successors E w → u ∈ N) :
    ∀ fuel v vis, v ∈ N → vis ⊆ N → dfsVisit E fuel v vis ⊆ N := by
  intro fuel
  induction fuel with
  | zero => intro v vis _ hvis; exact hvis
  | succ fuel ih =>
      intro v vis hv hvis
      show (if v ∈ vis then vis
        else (successors E v).foldl (fun acc u => dfsVisit E fuel u acc) (vis ++ [v])) ⊆ N
      split
      · exact hvis
      · have hstep : ∀ (us acc : List String), (∀ u ∈ us, u ∈ N) → acc ⊆ N →
            us.foldl (fun acc u => dfsVisit E fuel u acc) acc ⊆ N := by
          intro us
          induction us with
          | nil => intro acc _ hacc; exact hacc
          | cons u us ihu =>
              intro acc hus hacc
              simp only [List.foldl_cons]
              exact ihu _ (fun x hx => hus x (List.mem_cons_of_mem u hx))
                (ih u acc (hus u (List.mem_cons_self u us)) hacc)
        apply hstep
        · intro u hu; exact hcl v u hu
        · intro x hx
          rcases List.mem_append.mp hx with h | h
          · exact hvis h
          · rw [List.mem_singleton.mp h]; exact hv

theorem dfsVisit_nodup (E : List Edge) :
    ∀ fuel v vis, vis.Nodup → (dfsVisit E fuel v vis).Nodup := by
  intro fuel
  induction fuel with
  | zero => intro v vis h; exact h
  | succ fuel ih =>
      intro v vis h
      show (if v ∈ vis then vis
        else (successors E v).foldl (fun acc u => dfsVisit E fuel u acc) (vis ++ [v])).Nodup
      split
      · exact h
      · have hstep : ∀ (us acc : List String), acc.Nodup →
            (us.foldl (fun acc u => dfsVisit E fuel u acc) acc).Nodup := by
          intro us
          induction us with
          | nil => intro acc hacc; exact hacc
          | cons u us ihu =>
              intro acc hacc
              simp only [List.foldl_cons]
              exact ihu _ (ih u acc hacc)
        apply hstep
        simp only [List.nodup_append, List.nodup_cons, List.nodup_nil]
        refine ⟨h, by simp, ?_⟩
        intro x hx
        simp only [List.mem_singleton]
        intro hxv
        exact (by assumption : ¬ v ∈ vis) (hxv ▸ hx)

theorem dfsVisit_sound (E : List Edge) :
    ∀ fuel v vis, ∀ x ∈ dfsVisit E fuel v vis, x ∈ vis ∨ Reaches E v x := by
  intro fuel
  induction fuel with
  | zero => intro v vis x hx; exact Or.inl hx
  | succ fuel ih =>
      intro v vis x hx
      by_cases hv : v ∈ vis
      · left
        simpa [dfsVisit, hv] using hx
      · have hx' : x ∈ (successors E v).foldl
            (fun acc u => dfsVisit E fuel u acc) (vis ++ [v]) := by
          simpa [dfsVisit, hv] using hx
        have hstep : ∀ (us acc : List String),
            ∀ y ∈ us.foldl (fun acc u => dfsVisit E fuel u acc) acc,
              y ∈ acc ∨ ∃ u ∈ us, Reaches E u y := by
          intro us
          induction us with
          | nil => intro acc y hy; exact Or.inl hy
          | cons u us ihu =>
              intro acc y hy
              simp only [List.foldl_cons] at hy
              rcases ihu _ y hy with h | ⟨u', hu', hr⟩
              · rcases ih u acc y h with h' | h'
                · exact Or.inl h'
                · exact Or.inr ⟨u, List.mem_cons_self u us, h'⟩
              · exact Or.inr ⟨u', List.mem_cons_of_mem u hu', hr⟩
        rcases hstep _ _ x hx' with h | ⟨u, hu, hr⟩
        · rcases List.mem_append.mp h with h' | h'
          · exact Or.inl h'
          · right
            rw [List.mem_singleton.mp h']
            exact Relation.ReflTransGen.refl
        · right
          exact Relation.ReflTransGen.head (mem_successors.mp hu) hr

/-- Every element of the visit list is the root or has an in-edge from an
element recorded earlier (the parent that discovered it). -/
inductive Chained (E : List Edge) (root : String) : List String → Prop
  | nil : Chained E root []
  | snoc {l : List String} {x : String} : Chained E root l →
      (x = root ∨ ∃ u ∈ l, Edge.mk u x ∈ E) → Chained E root (l ++ [x])

theorem Chained.mem_split {E : List Edge} {root : String} {l : List String}
    (h : Chained E root l) :
    ∀ pre x post, l = pre ++ x :: post →
      x = root ∨ ∃ u ∈ pre, Edge.mk u x ∈ E := by
  induction h with
  | nil =>
      intro pre x post h
      exact absurd h (by simp)
  | snoc hl hx ih =>
      intro pre x post heq
      rcases List.eq_nil_or_concat post with rfl | ⟨q, z, rfl⟩
      · obtain ⟨h1, h2⟩ := List.append_inj' heq (by simp)
        obtain rfl : _ = x := (List.cons.injEq _ _ _ _ ▸ h2).1
        subst h1
        exact hx
      · rw [List.concat_eq_append, show pre ++ x :: (q ++ [z]) =
          (pre ++ x :: q) ++ [z] by simp] at heq
        obtain ⟨h1, h2⟩ := List.append_inj' heq rfl
        exact ih pre x q h1

theorem dfsVisit_chained (E : List Edge) (root : String) :
    ∀ fuel v vis, Chained E root vis →
      (v = root ∨ ∃ u ∈ vis, Edge.mk u v ∈ E) →
      Chained E root (dfsVisit E fuel v vis) := by
  intro fuel
  induction fuel with
  | zero => intro v vis h _; exact h
  | succ fuel ih =>
      intro v vis hch hv
      show Chained E root (if v ∈ vis then vis
        else (successors E v).foldl (fun acc u => dfsVisit E fuel u acc) (vis ++ [v]))
      split
      · exact hch
      · have hstep : ∀ (us acc : List String), Chained E root acc →
            (∀ u ∈ us, ∃ w ∈ acc, Edge.mk w u ∈ E) →
            Chained E root (us.foldl (fun acc u => dfsVisit E fuel u acc) acc) := by
          intro us
          induction us with
          | nil => intro acc hacc _; exact hacc
          | cons u us ihu =>
              intro acc hacc hus
              simp only [List.foldl_cons]
              apply ihu
              · exact ih u acc hacc (Or.inr (hus u (List.mem_cons_self u us)))
              · intro u' hu'
                obtain ⟨w, hw, he⟩ := hus u' (List.mem_cons_of_mem u hu')
                exact ⟨w, (dfsVisit_extends E fuel u acc).subset hw, he⟩
        apply hstep
        · exact Chained.snoc hch hv
        · intro u hu
          exact ⟨v, by simp, mem_successors.mp hu⟩

theorem dfsVisit_closed (E : List Edge) (N : List String) (hN : N.Nodup)
    (hcl : ∀ w u, u ∈ successors E w → u ∈ N) :
    ∀ fuel v vis, v ∈ N → vis ⊆ N → vis.Nodup →
      N.length + 1 ≤ fuel + vis.length →
      v ∈ dfsVisit E fuel v vis ∧
      ∀ x ∈ dfsVisit E fuel v vis, x ∈ vis ∨
        ∀ u ∈ successors E x, u ∈ dfsVisit E fuel v vis := by
  intro fuel
  induction fuel with
  | zero =>
      intro v vis _ hvis hnd hth
      have := (List.subperm_of_subset hnd hvis).length_le
      omega
  | succ fuel ih =>
      intro v vis hv hvis hnd hth
      by_cases hmem : v ∈ vis
      · constructor
        · simpa [dfsVisit, hmem] using hmem
        · intro x hx
          left
          simpa [dfsVisit, hmem] using hx
      · have hred : dfsVisit E (fuel + 1) v vis =
            (successors E v).foldl (fun acc u => dfsVisit E fuel u acc) (vis ++ [v]) := by
          simp [dfsVisit, hmem]
        have hacc0sub : (vis ++ [v]) ⊆ N := by
          intro x hx
          rcases List.mem_append.mp hx with h | h
          · exact hvis h
          · rw [List.mem_singleton.mp h]; exact hv
        have hacc0nd : (vis ++ [v]).Nodup := by
          simp only [List.nodup_append, List.nodup_cons, List.nodup_nil]
          refine ⟨hnd, by simp, ?_⟩
          intro x hx
          simp only [List.mem_singleton]
          intro hxv
          exact hmem (hxv ▸ hx)
        have hstep : ∀ (us acc : List String), (∀ u ∈ us, u ∈ N) → acc ⊆ N →
            acc.Nodup → N.length + 1 ≤ fuel + acc.length →
            (∀ u ∈ us, u ∈ us.foldl (fun acc u => dfsVisit E fuel u acc) acc) ∧
            (∀ x ∈ us.foldl (fun acc u => dfsVisit E fuel u acc) acc,
              x ∈ acc ∨ ∀ u ∈ successors E x,
                u ∈ us.foldl (fun acc u => dfsVisit E fuel u acc) acc) := by
          intro us
          induction us with
          | nil =>
              intro acc _ _ _ _
              exact ⟨by simp, fun x hx => Or.inl hx⟩
          | cons u us ihu =>
              intro acc hus hacc haccnd haccth
              simp only [List.foldl_cons]
              have h1 := ih u acc (hus u (List.mem_cons_self u us)) hacc haccnd haccth
              have hR1sub : dfsVisit E fuel u acc ⊆ N :=
                dfsVisit_subset E N hcl fuel u acc (hus u (List.mem_cons_self u us)) hacc
              have hR1nd : (dfsVisit E fuel u acc).Nodup :=
                dfsVisit_nodup E fuel u acc haccnd
              have hR1len : acc.length ≤ (dfsVisit E fuel u acc).length :=
                (dfsVisit_extends E fuel u acc).length_le
              have h2 := ihu (dfsVisit E fuel u acc)
                (fun x hx => hus x (List.mem_cons_of_mem u hx)) hR1sub hR1nd
                (by omega)
              have hpre : dfsVisit E fuel u acc <+:
                  us.foldl (fun acc u => dfsVisit E fuel u acc)
                    (dfsVisit E fuel u acc) :=
                dfsFold_extends E fuel (dfsVisit_extends E fuel) us _
              constructor
              · intro w hw
                rcases List.mem_cons.mp hw with rfl | hw'
                · exact hpre.subset h1.1
                · exact h2.1 w hw'
              · intro x hx
                rcases h2.2 x hx with hxr | hxs
                · rcases h1.2 x hxr with hxacc | hxsucc
                  · exact Or.inl hxacc
                  · right
                    intro w hw
                    exact hpre.subset (hxsucc w hw)
                · exact Or.inr hxs
        have hmain := hstep (successors E v) (vis ++ [v])
          (fun u hu => hcl v u hu) hacc0sub hacc0nd
          (by simp only [List.length_append, List.length_singleton]; omega)
        rw [hred]
        constructor
        · have : v ∈ vis ++ [v] := by simp
          exact (dfsFold_extends E fuel (dfsVisit_extends E fuel) _ _).subset this
        · intro x hx
          rcases hmain.2 x hx with hxa | hxs
          · rcases List.mem_append.mp hxa with h | h
            · exact Or.inl h
            · right
              rw [List.mem_singleton.mp h]
              intro u hu
              exact hmain.1 u hu
          · exact Or.inr hxs

/-! ## Auxiliary facts about the built graph -/

theorem DiGraph.edges_addVertex (g : DiGraph) (m : FamilyMember) :
    (g.addVertex m).edges = g.edges := by
  unfold DiGraph.addVertex; split <;> rfl

theorem registerFold_edges (ms : List FamilyMember) :
    ∀ p : DiGraph × (String → Option String),
      ((ms.foldl registerStep p).1).edges = p.1.edges := by
  induction ms with
  | nil => intro p; rfl
  | cons m ms ih =>
      intro p
      simp only [List.foldl_cons]
      rw [ih (registerStep p m)]
      exact DiGraph.edges_addVertex p.1 m

theorem registerAll_edges_nil (ms : List FamilyMember) :
    ((registerAll ms).1).edges = [] :=
  registerFold_edges ms _

theorem built_vertexIDs_nodup (members : List FamilyMember) :
    (buildFamilyGraph members).2.vertexIDs.Nodup := by
  have hv : (buildFamilyGraph members).2.vertexIDs =
      ((registerAll members).1).vertexIDs := by
    unfold DiGraph.vertexIDs
    rw [vertices_buildFamilyGraph]
  rw [hv]
  exact vertexIDs_registerFold_nodup members _ (by simp [DiGraph.vertexIDs])

theorem DiGraph.mem_addEdge_cases (g : DiGraph) (s d : String) (e : Edge)
    (he : e ∈ (g.addEdge s d).edges) :
    e ∈ g.edges ∨ (e = Edge.mk s d ∧ s ∈ g.vertexIDs ∧ d ∈ g.vertexIDs) := by
  unfold DiGraph.addEdge at he
  split at he
  · next h =>
      rcases List.mem_append.mp he with h' | h'
      · exact Or.inl h'
      · exact Or.inr ⟨List.mem_singleton.mp h', h.1, h.2.1⟩
  · exact Or.inl he

theorem edgeFold_endpoints (f : String → Option String) (ms : List FamilyMember) :
    ∀ p : DiGraph × List Edge,
      (∀ e ∈ p.1.edges, e.From ∈ p.1.vertexIDs ∧ e.To ∈ p.1.vertexIDs) →
      ∀ e ∈ (ms.foldl (edgeStep f) p).1.edges,
        e.From ∈ ((ms.foldl (edgeStep f) p).1).vertexIDs ∧
        e.To ∈ ((ms.foldl (edgeStep f) p).1).vertexIDs := by
  induction ms with
  | nil => intro p h; exact h
  | cons m ms ih =>
      intro p hp
      simp only [List.foldl_cons]
      apply ih
      intro e he
      have hvid : ((edgeStep f p m).1).vertexIDs = p.1.vertexIDs := by
        unfold DiGraph.vertexIDs
        rw [vertices_edgeStep]
      rw [hvid]
      unfold edgeStep at he
      split at he
      · cases hf : f m.ParentName with
        | some pid =>
            rw [hf] at he
            simp only at he
            rcases DiGraph.mem_addEdge_cases p.1 pid m.ID e he with h | ⟨rfl, h1, h2⟩
            · exact hp e h
            · exact ⟨h1, h2⟩
        | none =>
            rw [hf] at he
            exact hp e he
      · exact hp e he

theorem built_edges_endpoints (members : List FamilyMember) :
    ∀ e ∈ (buildFamilyGraph members).2.edges,
      e.From ∈ (buildFamilyGraph members).2.vertexIDs ∧
      e.To ∈ (buildFamilyGraph members).2.vertexIDs := by
  have h0 : ∀ e ∈ ((registerAll members).1).edges, e.From ∈ ((registerAll members).1).vertexIDs ∧
      e.To ∈ ((registerAll members).1).vertexIDs := by
    rw [registerAll_edges_nil]
    intro e he
    exact absurd he (by simp)
  exact edgeFold_endpoints (registerAll members).2 members
    ((registerAll members).1, []) h0

theorem edgeFold_mem_iff (f : String → Option String) (ms : List FamilyMember) :
    ∀ p : DiGraph × List Edge,
      (∀ e, e ∈ p.1.edges ↔ e ∈ p.2) →
      (∀ m ∈ ms, ∀ pid, f m.ParentName = some pid →
        pid ∈ p.1.vertexIDs ∧ m.ID ∈ p.1.vertexIDs) →
      ∀ e, e ∈ (ms.foldl (edgeStep f) p).1.edges ↔
        e ∈ (ms.foldl (edgeStep f) p).2 := by
  induction ms with
  | nil => intro p hp _; exact hp
  | cons m ms ih =>
      intro p hp hv
      simp only [List.foldl_cons]
      apply ih
      · intro e
        unfold edgeStep
        split
        · next hne =>
            cases hf : f m.ParentName with
            | none => exact hp e
            | some pid =>
                simp only
                obtain ⟨hpid, hmid⟩ := hv m (List.mem_cons_self m ms) pid hf
                unfold DiGraph.addEdge
                by_cases hdup : Edge.mk pid m.ID ∈ p.1.edges
                · rw [if_neg (by simp [DiGraph.hasVertex, hdup])]
                  simp only [List.mem_append, List.mem_singleton]
                  constructor
                  · intro h; exact Or.inl ((hp e).mp h)
                  · rintro (h | rfl)
                    · exact (hp e).mpr h
                    · exact hdup
                · rw [if_pos ⟨hpid, hmid, hdup⟩]
                  simp only [List.mem_append, List.mem_singleton]
                  constructor
                  · rintro (h | h)
                    · exact Or.inl ((hp e).mp h)
                    · exact Or.inr h
                  · rintro (h | h)
                    · exact Or.inl ((hp e).mpr h)
                    · exact Or.inr h
        · exact hp e
      · intro m' hm' pid hf
        have hvid : ((edgeStep f p m).1).vertexIDs = p.1.vertexIDs := by
          unfold DiGraph.vertexIDs
          rw [vertices_edgeStep]
        rw [hvid]
        exact hv m' (List.mem_cons_of_mem m hm') pid hf

theorem graph_edges_iff_slice (members : List FamilyMember) :
    ∀ e, e ∈ (buildFamilyGraph members).2.edges ↔
      e ∈ (buildFamilyGraph members).1.Edges := by
  show ∀ e, e ∈ (addFamilyEdges (registerAll members).1 (registerAll members).2
      members).1.edges ↔
    e ∈ (addFamilyEdges (registerAll members).1 (registerAll members).2 members).2
  unfold addFamilyEdges
  apply edgeFold_mem_iff
  · intro e
    rw [registerAll_edges_nil]
  · intro m hm pid hf
    rw [nameToID_eq_nameLookup] at hf
    obtain ⟨m', hm', _, hid⟩ := nameLookup_some members m.ParentName pid hf
    exact ⟨hid ▸ mem_vertexIDs_registerFold members _ m' hm',
      mem_vertexIDs_registerFold members _ m hm⟩

theorem built_indeg_unique (members : List FamilyMember)
    (hids : (members.map FamilyMember.ID).Nodup) :
    ∀ e1 ∈ (buildFamilyGraph members).2.edges,
      ∀ e2 ∈ (buildFamilyGraph members).2.edges, e1.To = e2.To → e1 = e2 := by
  have hTo : ∀ (c : FamilyMember) (e : Edge),
      (if c.ParentName = "" then none
       else (nameLookup members c.ParentName).map (fun pid => Edge.mk pid c.ID)) =
        some e → e.To = c.ID := by
    intro c e h
    by_cases hp : c.ParentName = ""
    · rw [if_pos hp] at h; exact absurd h (by simp)
    · rw [if_neg hp] at h
      cases hf : nameLookup members c.ParentName with
      | none => rw [hf] at h; exact absurd h (by simp)
      | some pid =>
          rw [hf] at h
          rw [← Option.some_inj.mp h]
  intro e1 h1 e2 h2 hto
  rw [graph_edges_iff_slice, Edges_buildFamilyGraph] at h1 h2
  obtain ⟨c1, hc1, hf1⟩ := List.mem_filterMap.mp h1
  obtain ⟨c2, hc2, hf2⟩ := List.mem_filterMap.mp h2
  have hcid : c1.ID = c2.ID := by
    rw [← hTo c1 e1 hf1, ← hTo c2 e2 hf2, hto]
  have hc : c1 = c2 := List.inj_on_of_nodup_map hids hc1 hc2 hcid
  rw [hc] at hf1
  exact Option.some_inj.mp (hf1 ▸ hf2)

/-! ## Pre-order from the chain invariant -/

theorem dfs_preorder_of_closed (E : List Edge) (start : String) (out : List String)
    (hchain : Chained E start out)
    (hsound : ∀ x ∈ out, Reaches E start x)
    (hclosed : ∀ x ∈ out, ∀ u ∈ successors E x, u ∈ out)
    (huniq : ∀ e1 ∈ E, ∀ e2 ∈ E, e1.To = e2.To → e1 = e2)
    (hacyc : Acyclic E) :
    ∀ u ∈ out, ∀ w ∈ successors E u,
      ∃ pre post, out = pre ++ w :: post ∧ u ∈ pre := by
  intro u hu w hw
  have hwout : w ∈ out := hclosed u hu w hw
  obtain ⟨pre, post, hsplit⟩ := List.append_of_mem hwout
  have hedge : Edge.mk u w ∈ E := mem_successors.mp hw
  rcases hchain.mem_split pre w post hsplit with rfl | ⟨u', hu', he'⟩
  · exact absurd (Relation.TransGen.tail' (hsound u hu) hedge) (hacyc w)
  · have heq : Edge.mk u' w = Edge.mk u w := huniq _ he' _ hedge rfl
    have : u' = u := by
      injection heq
    exact ⟨pre, post, hsplit, this ▸ hu'⟩

/-! ## C3 -/

/-- The original C3 claim fails on a cyclic dataset: with two entities
naming each other as parent, `DescendantTrace("1")` is `["1", "2"]`, yet
`"1"` is a successor of `"2"`, so the visited node `"2"` does not precede
its successor — the pre-order clause is violated. -/
theorem C3_preorder_counterexample :
    descendantTrace
        (buildFamilyGraph [⟨"1", "a", "b"⟩, ⟨"2", "b", "a"⟩]).2 "1" =
      Except.ok ["1", "2"] ∧
    "1" ∈ successors (buildFamilyGraph [⟨"1", "a", "b"⟩, ⟨"2", "b", "a"⟩]).2.edges "2" ∧
    ¬ ∃ pre post, (["1", "2"] : List String) = pre ++ "1" :: post ∧ "2" ∈ pre := by
  refine ⟨rfl, by decide, ?_⟩
  rintro ⟨pre, post, heq, hmem⟩
  cases pre with
  | nil => simp at hmem
  | cons a pre' =>
      rw [List.cons_append, List.cons.injEq] at heq
      obtain ⟨rfl, heq'⟩ := heq
      cases pre' with
      | nil => simp at heq'
      | cons b pre'' =>
          rw [List.cons_append, List.cons.injEq] at heq'
          obtain ⟨rfl, heq''⟩ := heq'
          exact absurd heq'' (by simp)

/-- C3 (amended): for every built graph and start ID present in it, the
depth-first descendant trace succeeds and visits exactly the set of nodes
reachable from the start via directed edges, each node exactly once; and
— provided the entity IDs are pairwise distinct and the edge relation is
acyclic — in pre-order: every visited node precedes each of its
successors, successors taken in edge-insertion order. -/
theorem C3_descendant_trace (members : List FamilyMember) (start : String)
    (hstart : start ∈ (buildFamilyGraph members).2.vertexIDs) :
    ∃ out, descendantTrace (buildFamilyGraph members).2 start = Except.ok out ∧
      out.Nodup ∧
      (∀ x, x ∈ out ↔ Reaches (buildFamilyGraph members).2.edges start x) ∧
      ((members.map FamilyMember.ID).Nodup →
        Acyclic (buildFamilyGraph members).2.edges →
        ∀ u ∈ out, ∀ w ∈ successors (buildFamilyGraph members).2.edges u,
          ∃ pre post, out = pre ++ w :: post ∧ u ∈ pre) := by
  have hok : descendantTrace (buildFamilyGraph members).2 start =
      Except.ok (dfsVisit (buildFamilyGraph members).2.edges
        ((buildFamilyGraph members).2.vertices.length + 1) start []) := by
    unfold descendantTrace
    rw [if_pos hstart]
  have hlen : (buildFamilyGraph members).2.vertices.length =
      (buildFamilyGraph members).2.vertexIDs.length := by
    unfold DiGraph.vertexIDs
    rw [List.length_map]
  have hcl : ∀ w u, u ∈ successors (buildFamilyGraph members).2.edges w →
      u ∈ (buildFamilyGraph members).2.vertexIDs := by
    intro w u hu
    obtain ⟨e, he, hfrom, hto⟩ : ∃ e ∈ (buildFamilyGraph members).2.edges,
        e.From = w ∧ e.To = u := by
      unfold successors at hu
      simp only [List.mem_map, List.mem_filter, decide_eq_true_eq] at hu
      obtain ⟨e, ⟨he, hf⟩, ht⟩ := hu
      exact ⟨e, he, hf, ht⟩
    rw [← hto]
    exact (built_edges_endpoints members e he).2
  have hclosed := dfsVisit_closed (buildFamilyGraph members).2.edges
    (buildFamilyGraph members).2.vertexIDs (built_vertexIDs_nodup members) hcl
    ((buildFamilyGraph members).2.vertices.length + 1) start []
    hstart (by simp) (by simp) (by omega)
  refine ⟨_, hok, dfsVisit_nodup _ _ _ _ (by simp), ?_, ?_⟩
  · intro x
    constructor
    · intro hx
      rcases dfsVisit_sound _ _ _ _ x hx with h | h
      · exact absurd h (by simp)
      · exact h
    · intro hx
      induction hx with
      | refl => exact hclosed.1
      | tail hab hbc ih =>
          rcases hclosed.2 _ ih with h | h
          · exact absurd h (by simp)
          · exact h _ (mem_successors.mpr hbc)
  · intro hids hacyc
    apply dfs_preorder_of_closed _ start _
      (dfsVisit_chained _ start _ start [] Chained.nil (Or.inl rfl))
    · intro x hx
      rcases dfsVisit_sound _ _ _ _ x hx with h | h
      · exact absurd h (by simp)
      · exact h
    · intro x hx u hu
      rcases hclosed.2 x hx with h | h
      · exact absurd h (by simp)
      · exact h u hu
    · exact built_indeg_unique members hids
    · exact hacyc

/-- In a one-edge graph with distinct endpoints, the edge relation has no
cycle. -/
theorem acyclic_single_edge (a b : String) (hab : a ≠ b) :
    Acyclic [Edge.mk a b] := by
  have hstep : ∀ v w, Relation.TransGen (edgeRel [Edge.mk a b]) v w →
      v = a ∧ w = b := by
    intro v w h
    induction h with
    | single h1 =>
        have : Edge.mk _ _ = Edge.mk a b := List.mem_singleton.mp h1
        injection this with h2 h3
        exact ⟨h2, h3⟩
    | tail h1 h2 ih =>
        have : Edge.mk _ _ = Edge.mk a b := List.mem_singleton.mp h2
        injection this with h3 h4
        exact absurd (ih.2.symm.trans h3) (Ne.symm hab)
  intro v hv
  obtain ⟨h1, h2⟩ := hstep v v hv
  exact hab (h1.symm.trans h2)

/-- Closed witness for `C3_descendant_trace` on the acyclic two-member
family `A → B`. -/
theorem C3_descendant_trace_witness :
    ∃ out, descendantTrace
        (buildFamilyGraph [⟨"1", "A", ""⟩, ⟨"2", "B", "A"⟩]).2 "1" =
      Except.ok out ∧
      out.Nodup ∧
      (∀ x, x ∈ out ↔
        Reaches (buildFamilyGraph [⟨"1", "A", ""⟩, ⟨"2", "B", "A"⟩]).2.edges "1" x) ∧
      (∀ u ∈ out, ∀ w ∈ successors
          (buildFamilyGraph [⟨"1", "A", ""⟩, ⟨"2", "B", "A"⟩]).2.edges u,
        ∃ pre post, out = pre ++ w :: post ∧ u ∈ pre) := by
  obtain ⟨out, h1, h2, h3, h4⟩ :=
    C3_descendant_trace [⟨"1", "A", ""⟩, ⟨"2", "B", "A"⟩] "1" (by decide)
  refine ⟨out, h1, h2, h3, h4 (by decide) ?_⟩
  have hE : (buildFamilyGraph [⟨"1", "A", ""⟩, ⟨"2", "B", "A"⟩]).2.edges =
      [Edge.mk "1" "2"] := by decide
  rw [hE]
  exact acyclic_single_edge "1" "2" (by decide)

/-! ## Distance from the start node -/

/-- `reachesIn E start n v`: there is a directed path of length at most
`n` from `start` to `v`. -/
def reachesIn (E : List Edge) (start : String) : Nat → String → Bool
  | 0, v => start == v
  | n + 1, v =>
      reachesIn E start n v ||
        E.any (fun e => e.To == v && reachesIn E start n e.From)

/-- `v` is at distance exactly `n` from `start`. -/
def isDist (E : List Edge) (start v : String) (n : Nat) : Prop :=
  reachesIn E start n v = true ∧ ∀ m < n, reachesIn E start m v = false

theorem reachesIn_zero_iff {E : List Edge} {start v : String} :
    reachesIn E start 0 v = true ↔ start = v := by
  simp [reachesIn]

theorem reachesIn_succ_iff {E : List Edge} {start v : String} {n : Nat} :
    reachesIn E start (n + 1) v = true ↔
      reachesIn E start n v = true ∨
        ∃ e ∈ E, e.To = v ∧ reachesIn E start n e.From = true := by
  simp [reachesIn, List.any_eq_true, Bool.or_eq_true, Bool.and_eq_true,
    beq_iff_eq, and_assoc]

theorem reachesIn_mono {E : List Edge} {start v : String} {m n : Nat}
    (h : m ≤ n) (hr : reachesIn E start m v = true) :
    reachesIn E start n v = true := by
  induction h with
  | refl => exact hr
  | step h ih => exact reachesIn_succ_iff.mpr (Or.inl ih)

theorem exists_isDist {E : List Edge} {start v : String} {n : Nat}
    (h : reachesIn E start n v = true) :
    ∃ m ≤ n, isDist E start v m := by
  have hex : ∃ m, reachesIn E start m v = true := ⟨n, h⟩
  refine ⟨Nat.find hex, Nat.find_min' hex h, Nat.find_spec hex, ?_⟩
  intro m hm
  simpa using Nat.find_min hex hm

theorem isDist_unique {E : List Edge} {start v : String} {m n : Nat}
    (h1 : isDist E start v m) (h2 : isDist E start v n) : m = n := by
  rcases Nat.lt_trichotomy m n with h | h | h
  · exact absurd h1.1 (by rw [h2.2 m h]; simp)
  · exact h
  · exact absurd h2.1 (by rw [h1.2 n h]; simp)

theorem isDist_le_of_reachesIn {E : List Edge} {start v : String} {m d : Nat}
    (h1 : isDist E start v m) (h2 : reachesIn E start d v = true) : m ≤ d := by
  by_contra h
  rw [h1.2 d (by omega)] at h2
  exact absurd h2 (by simp)

theorem reaches_iff_exists_reachesIn {E : List Edge} {start v : String} :
    Reaches E start v ↔ ∃ n, reachesIn E start n v = true := by
  constructor
  · intro h
    induction h with
    | refl => exact ⟨0, by simp [reachesIn]⟩
    | tail hab hbc ih =>
        obtain ⟨n, hn⟩ := ih
        exact ⟨n + 1, reachesIn_succ_iff.mpr (Or.inr ⟨_, hbc, rfl, hn⟩)⟩
  · rintro ⟨n, hn⟩
    induction n generalizing v with
    | zero =>
        rw [← reachesIn_zero_iff.mp hn]
        exact Relation.ReflTransGen.refl
    | succ n ih =>
        rcases reachesIn_succ_iff.mp hn with h | ⟨e, he, hTo, hFrom⟩
        · exact ih h
        · refine Relation.ReflTransGen.tail (ih hFrom) ?_
          show Edge.mk e.From v ∈ E
          cases e
          simp only at hTo
          subst hTo
          exact he

/-! ## The generation-layer view of the breadth-first sweep -/

/-- One generation step: expand the frontier nodes in visit order, each
contributing its not-yet-seen successors in edge-insertion order; a node
discovered twice in the same generation is kept at its first discovery. -/
def discoverRound (E : List Edge) : List String → List String → List String
  | _, [] => []
  | seen, v :: fr =>
      (successors E v).filter (fun u => u ∉ seen) ++
        discoverRound E (seen ++ (successors E v).filter (fun u => u ∉ seen)) fr

/-- Modelled from the spec: the generation-by-generation visit order —
layer 0 is the start node, layer `d+1` collects the nodes discovered from
layer `d` in edge-discovery order. -/
def sweepRounds (E : List Edge) : Nat → List String → List String → List String
  | 0, seen, _ => seen
  | k + 1, seen, fr =>
      if discoverRound E seen fr = [] then seen
      else sweepRounds E k (seen ++ discoverRound E seen fr) (discoverRound E seen fr)

theorem discoverRound_mem (E : List Edge) :
    ∀ (fr seen : List String) (u : String),
      u ∈ discoverRound E seen fr ↔
        (u ∉ seen ∧ ∃ v ∈ fr, Edge.mk v u ∈ E) := by
  intro fr
  induction fr with
  | nil => intro seen u; simp [discoverRound]
  | cons v fr ih =>
      intro seen u
      show u ∈ (successors E v).filter (fun u => u ∉ seen) ++
          discoverRound E (seen ++ (successors E v).filter (fun u => u ∉ seen)) fr ↔ _
      rw [List.mem_append]
      constructor
      · rintro (h | h)
        · rw [List.mem_filter] at h
          refine ⟨by simpa using h.2, v, List.mem_cons_self v fr, ?_⟩
          exact mem_successors.mp h.1
        · obtain ⟨hns, v', hv', he⟩ := (ih _ u).mp h
          refine ⟨fun hu => hns (List.mem_append.mpr (Or.inl hu)),
            v', List.mem_cons_of_mem v hv', he⟩
      · rintro ⟨hns, v', hv', he⟩
        by_cases hnew : u ∈ (successors E v).filter (fun u => u ∉ seen)
        · exact Or.inl hnew
        · rcases List.mem_cons.mp hv' with rfl | hv''
          · exact absurd (List.mem_filter.mpr
              ⟨mem_successors.mpr he, by simpa using hns⟩) hnew
          · refine Or.inr ((ih _ u).mpr ⟨?_, v', hv'', he⟩)
            intro hu
            rcases List.mem_append.mp hu with h | h
            · exact hns h
            · exact hnew h

theorem discoverRound_nodup (E : List Edge)
    (hsn : ∀ v, (successors E v).Nodup) :
    ∀ (fr seen : List String),
      (discoverRound E seen fr).Nodup ∧
        ∀ u ∈ discoverRound E seen fr, u ∉ seen := by
  intro fr
  induction fr with
  | nil => intro seen; simp [discoverRound]
  | cons v fr ih =>
      intro seen
      have hnew : ((successors E v).filter (fun u => u ∉ seen)).Nodup :=
        (hsn v).filter _
      obtain ⟨hrec, hfresh⟩ := ih (seen ++ (successors E v).filter (fun u => u ∉ seen))
      constructor
      · show ((successors E v).filter (fun u => u ∉ seen) ++
            discoverRound E (seen ++ (successors E v).filter (fun u => u ∉ seen)) fr).Nodup
        rw [List.nodup_append]
        refine ⟨hnew, hrec, ?_⟩
        intro x hx
        intro hx'
        exact hfresh x hx' (List.mem_append.mpr (Or.inr hx))
      · intro u hu
        show u ∉ seen
        rcases List.mem_append.mp hu with h | h
        · simpa using (List.mem_filter.mp h).2
        · intro hs
          exact hfresh u h (List.mem_append.mpr (Or.inl hs))

theorem bfsLoop_nil (E : List Edge) (fuel : Nat) (seen : List String) :
    bfsLoop E fuel [] seen = seen := by
  cases fuel <;> rfl

theorem bfsLoop_round (E : List Edge) :
    ∀ (fr : List String) (fuel : Nat) (acc seen : List String),
      bfsLoop E (fr.length + fuel) (fr ++ acc) seen =
        bfsLoop E fuel (acc ++ discoverRound E seen fr)
          (seen ++ discoverRound E seen fr) := by
  intro fr
  induction fr with
  | nil =>
      intro fuel acc seen
      simp [discoverRound, bfsLoop]
  | cons v fr ih =>
      intro fuel acc seen
      have hlen : (v :: fr).length + fuel = (fr.length + fuel) + 1 := by
        simp [Nat.add_comm, Nat.add_assoc, Nat.add_left_comm]
      rw [hlen]
      show bfsLoop E (fr.length + fuel)
          ((fr ++ acc) ++ (successors E v).filter (fun u => u ∉ seen))
          (seen ++ (successors E v).filter (fun u => u ∉ seen)) = _
      rw [List.append_assoc]
      rw [ih fuel (acc ++ (successors E v).filter (fun u => u ∉ seen))
        (seen ++ (successors E v).filter (fun u => u ∉ seen))]
      show _ = bfsLoop E fuel
        (acc ++ ((successors E v).filter (fun u => u ∉ seen) ++
          discoverRound E (seen ++ (successors E v).filter (fun u => u ∉ seen)) fr))
        (seen ++ ((successors E v).filter (fun u => u ∉ seen) ++
          discoverRound E (seen ++ (successors E v).filter (fun u => u ∉ seen)) fr))
      rw [← List.append_assoc, ← List.append_assoc]

theorem DiGraph.edges_nodup_addEdge (g : DiGraph) (s d : String)
    (h : g.edges.Nodup) : (g.addEdge s d).edges.Nodup := by
  unfold DiGraph.addEdge
  split
  · next hc =>
      rw [List.nodup_append]
      refine ⟨h, by simp, ?_⟩
      intro x hx
      simp only [List.mem_singleton]
      intro hx'
      exact hc.2.2 (hx' ▸ hx)
  · exact h

theorem edgeFold_edges_nodup (f : String → Option String) (ms : List FamilyMember) :
    ∀ p : DiGraph × List Edge, p.1.edges.Nodup →
      ((ms.foldl (edgeStep f) p).1).edges.Nodup := by
  induction ms with
  | nil => intro p h; exact h
  | cons m ms ih =>
      intro p hp
      simp only [List.foldl_cons]
      apply ih
      show ((edgeStep f p m).1).edges.Nodup
      unfold edgeStep
      split
      · cases hf : f m.ParentName with
        | some pid =>
            simp only [hf]
            exact DiGraph.edges_nodup_addEdge p.1 pid m.ID hp
        | none => simp only [hf]; exact hp
      · exact hp

theorem built_edges_nodup (members : List FamilyMember) :
    (buildFamilyGraph members).2.edges.Nodup := by
  show ((addFamilyEdges (registerAll members).1 (registerAll members).2
      members).1).edges.Nodup
  unfold addFamilyEdges
  apply edgeFold_edges_nodup
  rw [registerAll_edges_nil]
  exact List.nodup_nil

theorem successors_nodup (E : List Edge) (hE : E.Nodup) (v : String) :
    (successors E v).Nodup := by
  unfold successors
  refine List.Nodup.map_on ?_ (hE.filter _)
  intro x hx y hy hxy
  have hxf : x.From = v := by
    have := (List.mem_filter.mp hx).2
    simpa using this
  have hyf : y.From = v := by
    have := (List.mem_filter.mp hy).2
    simpa using this
  cases x; cases y
  simp only at hxf hyf hxy
  simp [hxf, hyf, hxy]

/-- The queue-based breadth-first loop is the generation-by-generation
sweep: the queue always holds the not-yet-expanded remainder of the
current generation followed by the partial next generation. -/
theorem loop_eq_rounds (E : List Edge) (N : List String) (hNd : N.Nodup)
    (hTo : ∀ e ∈ E, e.To ∈ N) (hsn : ∀ v, (successors E v).Nodup) :
    ∀ (K : Nat) (seen fr : List String) (F : Nat),
      seen.Nodup → seen ⊆ N →
      N.length + 1 ≤ K + seen.length →
      fr.length + N.length + 1 ≤ F + seen.length →
      bfsLoop E F fr seen = sweepRounds E K seen fr := by
  intro K
  induction K with
  | zero =>
      intro seen fr F hnd hsub hK _
      exfalso
      have := (List.subperm_of_subset hnd hsub).length_le
      omega
  | succ K ih =>
      intro seen fr F hnd hsub hK hF
      have hlen : seen.length ≤ N.length :=
        (List.subperm_of_subset hnd hsub).length_le
      obtain ⟨F', rfl⟩ : ∃ F', F = fr.length + F' :=
        ⟨F - fr.length, by omega⟩
      have hround := bfsLoop_round E fr F' [] seen
      rw [List.append_nil, List.nil_append] at hround
      rw [hround]
      by_cases hnext : discoverRound E seen fr = []
      · rw [hnext, bfsLoop_nil, List.append_nil]
        show seen = (if discoverRound E seen fr = [] then seen else _)
        rw [if_pos hnext]
      · have hfresh := discoverRound_nodup E hsn fr seen
        have hmemN : ∀ u ∈ discoverRound E seen fr, u ∈ N := by
          intro u hu
          obtain ⟨-, v, -, he⟩ := (discoverRound_mem E fr seen u).mp hu
          exact hTo _ he
        have hnd' : (seen ++ discoverRound E seen fr).Nodup := by
          rw [List.nodup_append]
          exact ⟨hnd, hfresh.1, fun x hx hx' => hfresh.2 x hx' hx⟩
        have hsub' : (seen ++ discoverRound E seen fr) ⊆ N := by
          intro x hx
          rcases List.mem_append.mp hx with h | h
          · exact hsub h
          · exact hmemN x h
        have hpos : 1 ≤ (discoverRound E seen fr).length := by
          cases hd : discoverRound E seen fr with
          | nil => exact absurd hd hnext
          | cons a l => simp
        have hrhs : (sweepRounds E (K + 1) seen fr) =
            sweepRounds E K (seen ++ discoverRound E seen fr)
              (discoverRound E seen fr) := by
          show (if discoverRound E seen fr = [] then seen else _) = _
          rw [if_neg hnext]
        rw [hrhs]
        apply ih
        · exact hnd'
        · exact hsub'
        · rw [List.length_append]; omega
        · rw [List.length_append]; omega

/-- If `seen` holds exactly the nodes within distance `d` and the frontier
exactly those at distance `d`, the discovered generation holds exactly the
nodes at distance `d + 1`. -/
theorem discoverRound_isDist (E : List Edge) (start : String) (d : Nat)
    (seen fr : List String)
    (h1 : ∀ u, u ∈ seen ↔ reachesIn E start d u = true)
    (h2 : ∀ u, u ∈ fr ↔ isDist E start u d) :
    ∀ u, u ∈ discoverRound E seen fr ↔ isDist E start u (d + 1) := by
  intro u
  rw [discoverRound_mem]
  constructor
  · rintro ⟨hns, v, hv, he⟩
    have hvd := (h2 v).mp hv
    have hnr : reachesIn E start d u = false := by
      cases hru : reachesIn E start d u with
      | true => exact absurd ((h1 u).mpr hru) hns
      | false => rfl
    constructor
    · exact reachesIn_succ_iff.mpr (Or.inr ⟨Edge.mk v u, he, rfl, hvd.1⟩)
    · intro m hm
      cases hr : reachesIn E start m u with
      | false => rfl
      | true =>
          have := reachesIn_mono (show m ≤ d by omega) hr
          rw [hnr] at this
          exact absurd this (by simp)
  · rintro ⟨hr, hmin⟩
    have hnsd : reachesIn E start d u = false := hmin d (by omega)
    refine ⟨fun hu => by rw [(h1 u).mp hu] at hnsd; exact absurd hnsd (by simp), ?_⟩
    rcases reachesIn_succ_iff.mp hr with h | ⟨e, he, hTo, hFrom⟩
    · rw [hnsd] at h
      exact absurd h (by simp)
    · obtain ⟨m, hm, hdist⟩ := exists_isDist hFrom
      have hmd : m = d := by
        by_contra hne
        have : reachesIn E start (m + 1) u = true :=
          reachesIn_succ_iff.mpr (Or.inr ⟨e, he, hTo, hdist.1⟩)
        rw [hmin (m + 1) (by omega)] at this
        exact absurd this (by simp)
      refine ⟨e.From, (h2 e.From).mpr (hmd ▸ hdist), ?_⟩
      show Edge.mk e.From u ∈ E
      cases e
      simp only at hTo
      subst hTo
      exact he

/-- Full specification of the generation sweep by induction over rounds:
no duplicates, exactly the reachable set, and the visit order is sorted by
exact distance from the start. -/
theorem sweepRounds_spec (E : List Edge) (start : String) (N : List String)
    (hNd : N.Nodup) (hTo : ∀ e ∈ E, e.To ∈ N)
    (hsn : ∀ v, (successors E v).Nodup) :
    ∀ (K d : Nat) (seen fr : List String),
      seen.Nodup → seen ⊆ N →
      (∀ u, u ∈ seen ↔ reachesIn E start d u = true) →
      (∀ u, u ∈ fr ↔ isDist E start u d) →
      List.Pairwise (fun u v => ∀ m n,
        isDist E start u m → isDist E start v n → m ≤ n) seen →
      N.length + 1 ≤ K + seen.length →
      (sweepRounds E K seen fr).Nodup ∧
      (∀ u, u ∈ sweepRounds E K seen fr ↔ ∃ n, reachesIn E start n u = true) ∧
      List.Pairwise (fun u v => ∀ m n,
        isDist E start u m → isDist E start v n → m ≤ n)
        (sweepRounds E K seen fr) := by
  intro K
  induction K with
  | zero =>
      intro d seen fr hnd hsub _ _ _ hK
      exfalso
      have := (List.subperm_of_subset hnd hsub).length_le
      omega
  | succ K ih =>
      intro d seen fr hnd hsub h1 h2 hpw hK
      have hlayer := discoverRound_isDist E start d seen fr h1 h2
      by_cases hnext : discoverRound E seen fr = []
      · have hres : sweepRounds E (K + 1) seen fr = seen := by
          show (if discoverRound E seen fr = [] then seen else _) = _
          rw [if_pos hnext]
        rw [hres]
        refine ⟨hnd, ?_, hpw⟩
        intro u
        constructor
        · intro hu
          exact ⟨d, (h1 u).mp hu⟩
        · rintro ⟨n, hn⟩
          have hstable : ∀ (m : Nat) (u : String),
              reachesIn E start (d + m) u = true →
              reachesIn E start d u = true := by
            intro m
            induction m with
            | zero => intro u h; exact h
            | succ m ihm =>
                intro u h
                rcases reachesIn_succ_iff.mp h with h' | ⟨e, he, hTo', hFrom⟩
                · exact ihm u h'
                · have hvd : reachesIn E start d e.From = true := ihm e.From hFrom
                  cases hrd : reachesIn E start d u with
                  | true => rfl
                  | false =>
                      have hu1 : reachesIn E start (d + 1) u = true :=
                        reachesIn_succ_iff.mpr (Or.inr ⟨e, he, hTo', hvd⟩)
                      obtain ⟨m', hm', hdist⟩ := exists_isDist hu1
                      have hm'd : m' = d + 1 := by
                        by_contra hne
                        have hle : m' ≤ d := by omega
                        have := reachesIn_mono hle hdist.1
                        rw [hrd] at this
                        exact absurd this (by simp)
                      have hmem := (hlayer u).mpr (hm'd ▸ hdist)
                      rw [hnext] at hmem
                      exact absurd hmem (by simp)
          by_cases hcase : n ≤ d
          · exact (h1 u).mpr (reachesIn_mono hcase hn)
          · refine (h1 u).mpr (hstable (n - d) u ?_)
            rw [show d + (n - d) = n from by omega]
            exact hn
      · have hfresh := discoverRound_nodup E hsn fr seen
        have hmemN : ∀ u ∈ discoverRound E seen fr, u ∈ N := by
          intro u hu
          obtain ⟨-, v, -, he⟩ := (discoverRound_mem E fr seen u).mp hu
          exact hTo _ he
        have hnd' : (seen ++ discoverRound E seen fr).Nodup := by
          rw [List.nodup_append]
          exact ⟨hnd, hfresh.1, fun x hx hx' => hfresh.2 x hx' hx⟩
        have hsub' : (seen ++ discoverRound E seen fr) ⊆ N := by
          intro x hx
          rcases List.mem_append.mp hx with h | h
          · exact hsub h
          · exact hmemN x h
        have h1' : ∀ u, u ∈ seen ++ discoverRound E seen fr ↔
            reachesIn E start (d + 1) u = true := by
          intro u
          rw [List.mem_append]
          constructor
          · rintro (h | h)
            · exact reachesIn_mono (Nat.le_succ d) ((h1 u).mp h)
            · exact ((hlayer u).mp h).1
          · intro h
            cases hrd : reachesIn E start d u with
            | true => exact Or.inl ((h1 u).mpr hrd)
            | false =>
                obtain ⟨m, hm, hdist⟩ := exists_isDist h
                have hmd : m = d + 1 := by
                  by_contra hne
                  have hle : m ≤ d := by omega
                  have := reachesIn_mono hle hdist.1
                  rw [hrd] at this
                  exact absurd this (by simp)
                exact Or.inr ((hlayer u).mpr (hmd ▸ hdist))
        have hpw' : List.Pairwise (fun u v => ∀ m n,
            isDist E start u m → isDist E start v n → m ≤ n)
            (seen ++ discoverRound E seen fr) := by
          rw [List.pairwise_append]
          refine ⟨hpw, ?_, ?_⟩
          · apply List.pairwise_of_forall_mem_list
            intro a ha b hb m n hm hn
            have hda := (hlayer a).mp ha
            have hdb := (hlayer b).mp hb
            rw [isDist_unique hm hda, isDist_unique hn hdb]
          · intro x hx y hy m n hm hn
            have hdx : m ≤ d :=
              isDist_le_of_reachesIn hm ((h1 x).mp hx)
            have hdy : n = d + 1 := isDist_unique hn ((hlayer y).mp hy)
            omega
        have hpos : 1 ≤ (discoverRound E seen fr).length := by
          cases hd : discoverRound E seen fr with
          | nil => exact absurd hd hnext
          | cons a l => simp
        have hres : sweepRounds E (K + 1) seen fr =
            sweepRounds E K (seen ++ discoverRound E seen fr)
              (discoverRound E seen fr) := by
          show (if discoverRound E seen fr = [] then seen else _) = _
          rw [if_neg hnext]
        rw [hres]
        exact ih (d + 1) _ _ hnd' hsub' h1' hlayer hpw'
          (by rw [List.length_append]; omega)

/-! ## C4 -/

/-- C4: for every built graph and start ID present in it, the
breadth-first generation sweep succeeds, visits exactly the reachable
nodes once each, in non-decreasing distance-from-start order; and the
visit order equals the generation-by-generation expansion in
edge-discovery order (`sweepRounds`). -/
theorem C4_generation_sweep (members : List FamilyMember) (start : String)
    (hstart : start ∈ (buildFamilyGraph members).2.vertexIDs) :
    ∃ out, generationSweep (buildFamilyGraph members).2 start = Except.ok out ∧
      out.Nodup ∧
      (∀ x, x ∈ out ↔ Reaches (buildFamilyGraph members).2.edges start x) ∧
      List.Pairwise (fun u v => ∀ m n,
        isDist (buildFamilyGraph members).2.edges start u m →
        isDist (buildFamilyGraph members).2.edges start v n → m ≤ n) out ∧
      out = sweepRounds (buildFamilyGraph members).2.edges
        ((buildFamilyGraph members).2.vertices.length + 1) [start] [start] := by
  have hok : generationSweep (buildFamilyGraph members).2 start =
      Except.ok (bfsLoop (buildFamilyGraph members).2.edges
        ((buildFamilyGraph members).2.vertices.length + 1) [start] [start]) := by
    unfold generationSweep
    rw [if_pos hstart]
  have hlen : (buildFamilyGraph members).2.vertexIDs.length =
      (buildFamilyGraph members).2.vertices.length := by
    unfold DiGraph.vertexIDs
    rw [List.length_map]
  have hTo' : ∀ e ∈ (buildFamilyGraph members).2.edges,
      e.To ∈ (buildFamilyGraph members).2.vertexIDs :=
    fun e he => (built_edges_endpoints members e he).2
  have hsn := successors_nodup (buildFamilyGraph members).2.edges
    (built_edges_nodup members)
  have hNd := built_vertexIDs_nodup members
  have hsub : ([start] : List String) ⊆ (buildFamilyGraph members).2.vertexIDs := by
    intro x hx
    rw [List.mem_singleton.mp hx]
    exact hstart
  have heq : bfsLoop (buildFamilyGraph members).2.edges
      ((buildFamilyGraph members).2.vertices.length + 1) [start] [start] =
      sweepRounds (buildFamilyGraph members).2.edges
        ((buildFamilyGraph members).2.vertices.length + 1) [start] [start] :=
    loop_eq_rounds _ _ hNd hTo' hsn _ [start] [start] _
      (by simp) hsub
      (by simp only [List.length_singleton]; omega)
      (by simp only [List.length_singleton]; omega)
  have h1z : ∀ u, u ∈ ([start] : List String) ↔
      reachesIn (buildFamilyGraph members).2.edges start 0 u = true := by
    intro u
    rw [List.mem_singleton, reachesIn_zero_iff, eq_comm]
  have h2z : ∀ u, u ∈ ([start] : List String) ↔
      isDist (buildFamilyGraph members).2.edges start u 0 := by
    intro u
    rw [List.mem_singleton]
    constructor
    · rintro rfl
      exact ⟨reachesIn_zero_iff.mpr rfl, fun m hm => absurd hm (Nat.not_lt_zero m)⟩
    · rintro ⟨h, -⟩
      exact (reachesIn_zero_iff.mp h).symm
  have hspec := sweepRounds_spec (buildFamilyGraph members).2.edges start
    (buildFamilyGraph members).2.vertexIDs hNd hTo' hsn
    ((buildFamilyGraph members).2.vertices.length + 1) 0 [start] [start]
    (by simp) hsub h1z h2z (List.pairwise_singleton _ _)
    (by simp only [List.length_singleton]; omega)
  refine ⟨_, hok, ?_, ?_, ?_, heq⟩
  · rw [heq]
    exact hspec.1
  · intro x
    rw [heq]
    exact (hspec.2.1 x).trans reaches_iff_exists_reachesIn.symm
  · rw [heq]
    exact hspec.2.2

/-- Closed witness for `C4_generation_sweep`. -/
theorem C4_generation_sweep_witness :
    ∃ out, generationSweep
        (buildFamilyGraph [⟨"1", "A", ""⟩, ⟨"2", "B", "A"⟩]).2 "1" =
      Except.ok out ∧
      out.Nodup ∧
      (∀ x, x ∈ out ↔
        Reaches (buildFamilyGraph [⟨"1", "A", ""⟩, ⟨"2", "B", "A"⟩]).2.edges "1" x) ∧
      List.Pairwise (fun u v => ∀ m n,
        isDist (buildFamilyGraph [⟨"1", "A", ""⟩, ⟨"2", "B", "A"⟩]).2.edges "1" u m →
        isDist (buildFamilyGraph [⟨"1", "A", ""⟩, ⟨"2", "B", "A"⟩]).2.edges "1" v n →
          m ≤ n) out ∧
      out = sweepRounds (buildFamilyGraph [⟨"1", "A", ""⟩, ⟨"2", "B", "A"⟩]).2.edges
        ((buildFamilyGraph [⟨"1", "A", ""⟩, ⟨"2", "B", "A"⟩]).2.vertices.length + 1)
        ["1"] ["1"] :=
  C4_generation_sweep [⟨"1", "A", ""⟩, ⟨"2", "B", "A"⟩] "1" (by decide)

end FamilyGraph
